import Mathlib

/-!
Shallow embedding of the belief-propagation engine of the PML2025 notebooks
(`04_exact_inference.ipynb`): labeled probability tensors (`Distribution`),
the factorization-string parser, the `PGM` graph container and the `Messages`
propagation engine.

NumPy arrays are modelled as row-major rational tensors (`Tensor`).  Python
exceptions (AssertionError, KeyError, IndexError, ValueError, StopIteration,
AttributeError, RecursionError) are all modelled as `Option.none`; unbounded
recursion is modelled with an explicit fuel parameter, so a call that Python
completes succeeds here for every sufficiently large fuel.  Rational division
is total (`q / 0 = 0`) where NumPy floating point would produce `nan`; every
theorem below is insensitive to the value a division by zero produces.
-/

namespace PML

/-- Row-major tensor of rationals: `shape` lists the axis sizes, `data` holds
the flattened entries, mirroring a NumPy ndarray (a rank-0 array is
`shape = []` with a single entry). -/
structure Tensor where
  shape : List Nat
  data : List ℚ
deriving DecidableEq, Repr

/-- All multi-indices of a shape, enumerated in row-major (C) order. -/
def allIdx : List Nat → List (List Nat)
  | [] => [[]]
  | s :: rest => (List.range s).flatMap (fun i => (allIdx rest).map (fun idx => i :: idx))

/-- Row-major flat position of a multi-index inside a shape. -/
def flatIdx : List Nat → List Nat → Nat
  | _ :: srest, i :: irest => i * srest.prod + flatIdx srest irest
  | _, _ => 0

/-- Entry of a tensor at a multi-index (default 0 outside the data; a
well-formed array is never read outside its data). -/
def Tensor.val (t : Tensor) (idx : List Nat) : ℚ :=
  t.data.getD (flatIdx t.shape idx) 0

/-- The entries of a tensor read off in row-major order. -/
def Tensor.entries (t : Tensor) : List ℚ :=
  (allIdx t.shape).map t.val

/-- np.squeeze: axes of size one disappear; row-major data is unchanged. -/
def Tensor.squeeze (t : Tensor) : Tensor :=
  ⟨t.shape.filter (fun s => decide (s ≠ 1)), t.data⟩

/-- np.sum(t, axis=tuple): sum out the listed axis positions; the remaining
axes keep their relative order (an empty tuple sums nothing). -/
def Tensor.sumAxes (t : Tensor) (axes : List Nat) : Tensor :=
  let keep := (List.range t.shape.length).filter (fun i => decide (¬ i ∈ axes))
  let kshape := keep.map (fun i => t.shape.getD i 0)
  ⟨kshape,
   (allIdx kshape).map (fun j =>
     (((allIdx t.shape).filter
         (fun idx => decide (keep.map (fun i => idx.getD i 0) = j))).map t.val).sum)⟩

/-- `unnorm_p / np.sum(unnorm_p)`: divide every entry by the grand total.
NumPy produces `nan` when the total is zero; here `q / 0 = 0`. -/
def Tensor.normalize (t : Tensor) : Tensor :=
  ⟨t.shape, t.entries.map (fun q => q / t.entries.sum)⟩

/-- class Distribution: a discrete distribution as a labeled array;
`axes_labels` names the axes of `probs` in order. -/
structure Distribution where
  probs : Tensor
  axes_labels : List String
deriving DecidableEq, Repr

/-- `get_axes()[n]`: the dict built by get_axes maps each label to its axis
position (a later duplicate label overwrites an earlier one); looking up a
missing name is a KeyError, modelled as `none`. -/
def Distribution.get_axis (d : Distribution) (n : String) : Option Nat :=
  ((d.axes_labels.enum.filter (fun p => decide (p.2 = n))).getLast?).map (fun p => p.1)

/-- get_other_axes_from: every axis position whose label differs from `n`,
in increasing order. -/
def Distribution.get_other_axes_from (d : Distribution) (n : String) : List Nat :=
  (d.axes_labels.enum.filter (fun p => decide (p.2 ≠ n))).map (fun p => p.1)

/-- multiply(p_v_given_h, p_hi): reshape the (at most 1-D) `p_hi` so that its
single dimension sits at the axis of `p_v_given_h` labelled with `p_hi`'s
first axis name, then multiply with broadcasting.  `none` models the Python
failures: StopIteration when `p_hi` has no axis label, KeyError when the
label is not among `p_v_given_h`'s labels, IndexError when the found axis
position exceeds the array rank, and the reshape ValueError when `p_hi`'s
element count differs from the size of the matched axis.  A rank-0 `p_hi`
multiplies as a plain scalar. -/
def multiply (p_v_given_h p_hi : Distribution) : Option Distribution :=
  match p_hi.axes_labels.head? with
  | none => none
  | some bname =>
    match p_v_given_h.get_axis bname with
    | none => none
    | some axis =>
      if h : axis < p_v_given_h.probs.shape.length then
        let n := p_v_given_h.probs.shape.get ⟨axis, h⟩
        if p_hi.probs.shape = ([] : List Nat) then
          some ⟨⟨p_v_given_h.probs.shape,
            (allIdx p_v_given_h.probs.shape).map
              (fun idx => p_v_given_h.probs.val idx * p_hi.probs.data.getD 0 0)⟩,
            p_v_given_h.axes_labels⟩
        else
          if p_hi.probs.shape.prod = n then
            some ⟨⟨p_v_given_h.probs.shape,
              (allIdx p_v_given_h.probs.shape).map
                (fun idx => p_v_given_h.probs.val idx * p_hi.probs.data.getD (idx.getD axis 0) 0)⟩,
              p_v_given_h.axes_labels⟩
          else none
      else none

/-- class Variable: a named node; `neighbors` are the names of adjacent
Factor nodes in insertion order.  The Python object graph links node
objects; nodes are identified here by name, the identity the code itself
uses for the message cache and for neighbor comparisons. -/
structure Variable where
  name : String
  neighbors : List String
deriving DecidableEq, Repr

/-- class Factor: a named node; `neighbors` are adjacent Variable names in
insertion order and `data` the optionally bound Distribution (`None` at
construction). -/
structure Factor where
  name : String
  neighbors : List String
  data : Option Distribution
deriving DecidableEq, Repr

/-- class PGM: the factor list and the name→Variable dict (a dict is an
association list with distinct keys in insertion order; each key is the
stored Variable's own name). -/
structure PGM where
  _factors : List Factor
  _variables : List Variable
deriving DecidableEq, Repr

/-- str.split(c): the pieces of the string between occurrences of `c`
(Python keeps empty pieces). -/
def splitOnChar (c : Char) : List Char → List (List Char)
  | [] => [[]]
  | a :: rest =>
    match splitOnChar c rest with
    | [] => [[]]
    | h :: t => if a = c then [] :: h :: t else (a :: h) :: t

/-- namedtuple ParsedTerm(term, var_name, given). -/
structure ParsedTerm where
  term : String
  var_name : List String
  given : List String
deriving DecidableEq, Repr

/-- _parse_term(term): the assert demands `(` first and `)` last; the inner
text splits at most once on the bar (two or more bars is the unpacking
ValueError), and each side splits on commas (Python's split keeps empty
pieces, so `()` yields the single empty identifier). -/
def parse_term (term : List Char) : Option (List String × List String) :=
  if term.head? = some '(' ∧ term.getLast? = some ')' then
    let term_variables := (term.drop 1).dropLast
    match splitOnChar '|' term_variables with
    | [v] => some ((splitOnChar ',' v).map (fun l => String.mk l), [])
    | [v, g] => some ((splitOnChar ',' v).map (fun l => String.mk l),
                      (splitOnChar ',' g).map (fun l => String.mk l))
    | _ => none
  else none

/-- _parse_model_string_into_terms: split the model string on the letter p,
drop empty pieces, parse each piece as a term, and rebuild the canonical
term text with its p prefix. -/
def parse_model_string_into_terms (model_string : String) : Option (List ParsedTerm) :=
  ((splitOnChar 'p' model_string.data).filter (fun t => decide (t ≠ []))).mapM
    (fun t => (parse_term t).map (fun vg => ⟨String.mk ('p' :: t), vg.1, vg.2⟩))

/-- First loop of parse_model_into_variables_and_factors, inner iteration:
add a Variable for each not-yet-seen name.  Only names are consulted, so a
plain fold suffices. -/
def addNames (vars : List Variable) : List String → List Variable
  | [] => vars
  | n :: rest =>
    addNames (if vars.any (fun v => decide (v.name = n)) then vars else vars ++ [⟨n, []⟩]) rest

/-- First loop of parse_model_into_variables_and_factors: Variables are
created from the var_name (left-of-bar) part of every term only. -/
def collectVariables : List Variable → List ParsedTerm → List Variable
  | vars, [] => vars
  | vars, t :: rest => collectVariables (addNames vars t.var_name) rest

/-- Inner loop of the second phase: link one new Factor to the Variable of
each identifier of its term, one occurrence at a time, appending the factor
to that Variable's neighbors and the variable to the factor's neighbors.
An identifier with no Variable is the `variables[var_name]` KeyError. -/
def linkTerm : List Variable → Factor → List String → Option (List Variable × Factor)
  | vars, acc, [] => some (vars, acc)
  | vars, acc, n :: rest =>
    if vars.any (fun v => decide (v.name = n)) then
      linkTerm
        (vars.map (fun v => if v.name = n then ⟨v.name, v.neighbors ++ [acc.name]⟩ else v))
        ⟨acc.name, acc.neighbors ++ [n], acc.data⟩ rest
    else none

/-- Second loop of parse_model_into_variables_and_factors: one Factor per
term, in order, each linked through `linkTerm`. -/
def buildFactors : List Variable → List Factor → List ParsedTerm → Option (List Variable × List Factor)
  | vars, factors, [] => some (vars, factors)
  | vars, factors, t :: rest =>
    match linkTerm vars ⟨t.term, [], none⟩ (t.var_name ++ t.given) with
    | none => none
    | some (vars₁, f) => buildFactors vars₁ (factors ++ [f]) rest

/-- parse_model_into_variables_and_factors(model_string). -/
def parse_model_into_variables_and_factors (model_string : String) :
    Option (List Factor × List Variable) :=
  match parse_model_string_into_terms model_string with
  | none => none
  | some parsed_terms =>
    match buildFactors (collectVariables [] parsed_terms) [] parsed_terms with
    | none => none
    | some (variables₁, factors) => some (factors, variables₁)

/-- PGM.from_string. -/
def PGM.from_string (model_string : String) : Option PGM :=
  (parse_model_into_variables_and_factors model_string).map (fun p => ⟨p.1, p.2⟩)

/-- PGM.variable_from_name: the `self._variables[var_name]` dict lookup. -/
def PGM.variable_from_name (g : PGM) (n : String) : Option Variable :=
  g._variables.find? (fun v => decide (v.name = n))

/-- Looking a factor up by name (the engine is handed factor objects in
Python; by-name lookup is the same thing for the name-keyed graphs the
parser builds). -/
def PGM.find_factor (g : PGM) (n : String) : Option Factor :=
  g._factors.find? (fun f => decide (f.name = n))

/-- The var_dims loop of PGM.set_distributions: record the first size seen
for each axis name and reject a later disagreeing size. -/
def checkDims : List (String × Nat) → List (String × Nat) → Option (List (String × Nat))
  | var_dims, [] => some var_dims
  | var_dims, (n, dim) :: rest =>
    match var_dims.find? (fun e => decide (e.1 = n)) with
    | none => checkDims (var_dims ++ [(n, dim)]) rest
    | some e => if e.2 = dim then checkDims var_dims rest else none

/-- Per-factor body of PGM.set_distributions: fetch the factor's entry from
the data mapping (KeyError if missing), demand set equality between the
tensor's axis labels and the factor's neighbor names, thread the axis-size
consistency check, and bind the tensor. -/
def setDistributionsGo (data : List (String × Distribution)) :
    List Factor → List (String × Nat) → Option (List Factor)
  | [], _ => some []
  | f :: rest, var_dims =>
    match (data.find? (fun e => decide (e.1 = f.name))).map (fun e => e.2) with
    | none => none
    | some fd =>
      if fd.axes_labels.all (fun l => decide (l ∈ f.neighbors)) ∧
         f.neighbors.all (fun nb => decide (nb ∈ fd.axes_labels)) then
        match checkDims var_dims (fd.axes_labels.zip fd.probs.shape) with
        | none => none
        | some var_dims₁ =>
          match setDistributionsGo data rest var_dims₁ with
          | none => none
          | some fs => some (⟨f.name, f.neighbors, some fd⟩ :: fs)
      else none

/-- PGM.set_distributions(data).  The Option is all-or-nothing where Python
would leave earlier factors bound when a later one raises; no claim below
observes the state after an exception. -/
def PGM.set_distributions (g : PGM) (data : List (String × Distribution)) : Option PGM :=
  match setDistributionsGo data g._factors [] with
  | none => none
  | some factors => some ⟨factors, g._variables⟩

/-- class Messages state: the graph the engine is driven over together with
self.messages, the dict keyed by (sender name, receiver name).  Threading
the graph through the state lets the theorems state that no message
operation mutates it. -/
structure MState where
  pgm : PGM
  messages : List ((String × String) × Tensor)
deriving DecidableEq, Repr

/-- `self.messages[k]` read access (`k in self.messages` is `isSome`). -/
def lookupMsg (st : MState) (k : String × String) : Option Tensor :=
  (st.messages.find? (fun e => decide (e.1 = k))).map (fun e => e.2)

/-- Dict assignment `self.messages[k] = m`: overwrite in place when the key
is present (a dict keeps the key's original position), otherwise append. -/
def insertMsg (st : MState) (k : String × String) (m : Tensor) : MState :=
  ⟨st.pgm,
   if (st.messages.find? (fun e => decide (e.1 = k))).isSome then
     st.messages.map (fun e => if e.1 = k then (k, m) else e)
   else st.messages ++ [(k, m)]⟩

/-- np.prod(messages, axis=0): the scalar 1 for an empty list, the
elementwise product when all shapes agree, and a NumPy error (ragged array
construction) otherwise. -/
def prodMsgs : List Tensor → Option Tensor
  | [] => some ⟨[], [1]⟩
  | m :: ms =>
    if ms.all (fun x => decide (x.shape = m.shape)) then
      some ⟨m.shape,
        (allIdx m.shape).map (fun idx => ((m :: ms).map (fun x => x.val idx)).prod)⟩
    else none

namespace Messages

mutual

/-- Messages.variable_to_factor_messages(variable, factor): return the cached
message for (variable.name, factor.name) if present, else compute the product
of the factor→variable messages of all of the variable's neighboring factors
except `factor` (the _variable_to_factor_messages body) and cache it.
`fuel` bounds the recursion depth (Python recurses unboundedly). -/
def variable_to_factor_messages (fuel : Nat) (st : MState) (vname fname : String) :
    Option (Tensor × MState) :=
  match lookupMsg st (vname, fname) with
  | some m => some (m, st)
  | none =>
    match fuel with
    | 0 => none
    | fuel + 1 =>
      match st.pgm.variable_from_name vname with
      | none => none
      | some v =>
        match collectIncoming fuel st (v.neighbors.filter (fun n => decide (n ≠ fname))) vname with
        | none => none
        | some (msgs, st₁) =>
          match prodMsgs msgs with
          | none => none
          | some m => some (m, insertMsg st₁ (vname, fname) m)

/-- The list comprehension of _variable_to_factor_messages (also reused by
marginal): request the factor→variable message of each listed factor in
order, threading the cache. -/
def collectIncoming (fuel : Nat) (st : MState) (fnames : List String) (vname : String) :
    Option (List Tensor × MState) :=
  match fnames with
  | [] => some ([], st)
  | f :: rest =>
    match fuel with
    | 0 => none
    | fuel + 1 =>
      match factor_to_variable_message fuel st f vname with
      | none => none
      | some (m, st₁) =>
        match collectIncoming fuel st₁ rest vname with
        | none => none
        | some (ms, st₂) => some (m :: ms, st₂)

/-- Messages.factor_to_variable_message(factor, variable): cached if present;
else the _factor_to_variable_messages body: start from the factor's bound
tensor (unbound data is the Python AttributeError), multiply in the
variable→factor message of every neighboring variable except `variable`,
sum out every axis whose label differs from variable.name (positions taken
from the original bound tensor), squeeze, cache. -/
def factor_to_variable_message (fuel : Nat) (st : MState) (fname vname : String) :
    Option (Tensor × MState) :=
  match lookupMsg st (fname, vname) with
  | some m => some (m, st)
  | none =>
    match fuel with
    | 0 => none
    | fuel + 1 =>
      match st.pgm.find_factor fname with
      | none => none
      | some fa =>
        match fa.data with
        | none => none
        | some d =>
          match multiplyIncoming fuel st fa.neighbors fname vname ⟨d.probs, d.axes_labels⟩ with
          | none => none
          | some (fd, st₁) =>
            let m := (fd.probs.sumAxes (d.get_other_axes_from vname)).squeeze
            some (m, insertMsg st₁ (fname, vname) m)

/-- The neighbor loop of _factor_to_variable_messages: skip the addressed
variable, request each other neighbor's variable→factor message and multiply
it into the running distribution as a single-axis tensor labelled with that
neighbor's name. -/
def multiplyIncoming (fuel : Nat) (st : MState) (unames : List String) (fname vname : String)
    (acc : Distribution) : Option (Distribution × MState) :=
  match unames with
  | [] => some (acc, st)
  | u :: rest =>
    match fuel with
    | 0 => none
    | fuel + 1 =>
      if u = vname then multiplyIncoming fuel st rest fname vname acc
      else
        match variable_to_factor_messages fuel st u fname with
        | none => none
        | some (im, st₁) =>
          match multiply acc ⟨im, [u]⟩ with
          | none => none
          | some acc₁ => multiplyIncoming fuel st₁ rest fname vname acc₁

end

/-- The first line of Messages.marginal: the unnormalized marginal, i.e. the
elementwise product of the factor→variable messages of every neighboring
factor of the variable. -/
def unnorm_marginal (fuel : Nat) (st : MState) (vname : String) : Option (Tensor × MState) :=
  match st.pgm.variable_from_name vname with
  | none => none
  | some v =>
    match collectIncoming fuel st v.neighbors vname with
    | none => none
    | some (msgs, st₁) =>
      match prodMsgs msgs with
      | none => none
      | some u => some (u, st₁)

/-- Messages.marginal(variable): the unnormalized marginal divided by its
own sum.  There is no zero-sum check: the division is performed always. -/
def marginal (fuel : Nat) (st : MState) (vname : String) : Option (Tensor × MState) :=
  (unnorm_marginal fuel st vname).map (fun p => (p.1.normalize, p.2))

/-- The inner loop shared by Messages.forward and Messages.backward: walk
one node's neighbor list, skipping pairs already in the local
processed_nodes set, and force the message for each remaining pair in the
appropriate direction. -/
def processNeighbors (fuel : Nat) (isVar : Bool) (nname : String) :
    MState → List String → List (String × String) → Option (MState × List (String × String))
  | st, [], seen => some (st, seen)
  | st, nb :: rest, seen =>
    if (nname, nb) ∈ seen then processNeighbors fuel isVar nname st rest seen
    else
      match (if isVar then variable_to_factor_messages fuel st nname nb
             else factor_to_variable_message fuel st nname nb) with
      | none => none
      | some (_, st₁) => processNeighbors fuel isVar nname st₁ rest ((nname, nb) :: seen)

/-- `pgm._factors + list(pgm._variables.values())` tagged with the
isinstance(node, Variable) discriminator. -/
def nodeList (g : PGM) : List (Bool × String × List String) :=
  g._factors.map (fun f => (false, f.name, f.neighbors)) ++
  g._variables.map (fun v => (true, v.name, v.neighbors))

/-- The node loop shared by forward and backward, threading the engine state
and the processed_nodes set. -/
def processNodes (fuel : Nat) :
    MState → List (Bool × String × List String) → List (String × String) → Option MState
  | st, [], _ => some st
  | st, (isVar, n, nbrs) :: rest, seen =>
    match processNeighbors fuel isVar n st nbrs seen with
    | none => none
    | some (st₁, seen₁) => processNodes fuel st₁ rest seen₁

/-- Messages.forward(pgm): factors then variables, in insertion order. -/
def forward (fuel : Nat) (st : MState) : Option MState :=
  processNodes fuel st (nodeList st.pgm) []

/-- Messages.backward(pgm): the same node list in reversed order (each
node's neighbor list still in its own order). -/
def backward (fuel : Nat) (st : MState) : Option MState :=
  processNodes fuel st (nodeList st.pgm).reverse []

/-- The marginal loop of Messages.belief_propagation: one (name, marginal)
entry per variable of the graph, in dict order. -/
def computeMarginals (fuel : Nat) :
    MState → List Variable → Option (List (String × Tensor) × MState)
  | st, [] => some ([], st)
  | st, v :: rest =>
    match marginal fuel st v.name with
    | none => none
    | some (m, st₁) =>
      match computeMarginals fuel st₁ rest with
      | none => none
      | some (ms, st₂) => some ((v.name, m) :: ms, st₂)

/-- Messages.belief_propagation(pgm): forward, backward, then the marginal
of every variable. -/
def belief_propagation (fuel : Nat) (st : MState) : Option (List (String × Tensor) × MState) :=
  match forward fuel st with
  | none => none
  | some st₁ =>
    match backward fuel st₁ with
    | none => none
    | some st₂ => computeMarginals fuel st₂ st₂.pgm._variables

end Messages

/-- From the spec (§8, cache correctness): re-derive a marginal by hand by
multiplying the cached factor→variable messages of the variable's neighbors
elementwise and normalizing.  Stated from the spec's words, for comparison
with the engine's reported marginal. -/
def rederivedMarginal (st : MState) (v : Variable) : Option Tensor :=
  match v.neighbors.mapM (fun f => lookupMsg st (f, v.name)) with
  | none => none
  | some msgs => (prodMsgs msgs).map Tensor.normalize

/-- All entries of a tensor's backing data are non-negative. -/
def NonnegT (t : Tensor) : Prop := ∀ q ∈ t.data, 0 ≤ q

/-- Every bound factor tensor of the graph is entrywise non-negative. -/
def NonnegPGM (g : PGM) : Prop := ∀ f ∈ g._factors, ∀ d ∈ f.data.toList, NonnegT d.probs

/-- Every cached message is entrywise non-negative. -/
def NonnegCache (ms : List ((String × String) × Tensor)) : Prop := ∀ e ∈ ms, NonnegT e.2

/-- Non-negativity of a whole engine state. -/
def NonnegS (st : MState) : Prop := NonnegPGM st.pgm ∧ NonnegCache st.messages

instance (t : Tensor) : Decidable (NonnegT t) := by unfold NonnegT; infer_instance

instance (g : PGM) : Decidable (NonnegPGM g) := by unfold NonnegPGM; infer_instance

instance (ms : List ((String × String) × Tensor)) : Decidable (NonnegCache ms) := by
  unfold NonnegCache; infer_instance

instance (st : MState) : Decidable (NonnegS st) := by unfold NonnegS; infer_instance

/-- One-factor graph for `p(x1)` with the all-zero (hence non-negative)
tensor `[0, 0]`: the simplest degenerate-evidence graph. -/
def gZ : PGM := ⟨[⟨"p(x1)", ["x1"], some ⟨⟨[2], [0, 0]⟩, ["x1"]⟩⟩], [⟨"x1", ["p(x1)"]⟩]⟩

/-- Hard-contradictory evidence: `p(h) = [1, 0]` together with a conditional
`p(v|h)` whose column for the possible state of h is all zero, so the
unnormalized marginal of v is the zero vector. -/
def gDeg : PGM :=
  ⟨[⟨"p(h)", ["h"], some ⟨⟨[2], [1, 0]⟩, ["h"]⟩⟩,
    ⟨"p(v|h)", ["v", "h"], some ⟨⟨[2, 2], [0, 1, 0, 0]⟩, ["v", "h"]⟩⟩],
   [⟨"h", ["p(h)", "p(v|h)"]⟩, ⟨"v", ["p(v|h)"]⟩]⟩

/-- The three tensors of the notebook's three-factor chain (scenario A). -/
def dataA : List (String × Distribution) :=
  [("p(x1,x3)", ⟨⟨[2, 2], [3/10, 2/10, 1/10, 4/10]⟩, ["x1", "x3"]⟩),
   ("p(x2,x3)", ⟨⟨[2, 2], [1/10, 5/10, 2/10, 2/10]⟩, ["x2", "x3"]⟩),
   ("p(x3,x4,x5)", ⟨⟨[2, 2, 2], [1/10, 0, 1/10, 1/10, 1/10, 0, 2/10, 4/10]⟩,
     ["x3", "x4", "x5"]⟩)]

/-- The scenario-A engine state: graph parsed from the factorization string,
tensors bound, empty cache. -/
def stA : Option MState :=
  ((PGM.from_string ("p(x1,x3)p(x2,x3)p(x3,x4,x5)")).bind
    (fun g => g.set_distributions dataA)).map (fun g => ⟨g, []⟩)

/-! Concrete graphs shared by witnesses and counterexamples. -/

/-- The parsed terms of the factorization string used as the C3 witness. -/
def tsW : List ParsedTerm := [⟨"p(h1)", ["h1"], []⟩, ⟨"p(h2|h1)", ["h2"], ["h1"]⟩]

/-- The factors parse_model_into_variables_and_factors builds for it. -/
def fsW : List Factor :=
  [⟨"p(h1)", ["h1"], none⟩, ⟨"p(h2|h1)", ["h2", "h1"], none⟩]

/-- The variables parse_model_into_variables_and_factors builds for it. -/
def vsW : List Variable :=
  [⟨"h1", ["p(h1)", "p(h2|h1)"]⟩, ⟨"h2", ["p(h2|h1)"]⟩]


/-- One-factor, one-variable graph for `p(a)` with tensor `[1/2, 1/2]`. -/
def gW : PGM := ⟨[⟨"p(a)", ["a"], some ⟨⟨[2], [1/2, 1/2]⟩, ["a"]⟩⟩], [⟨"a", ["p(a)"]⟩]⟩

/-- The engine state after `marginal` of `a` on `gW` from an empty cache. -/
def stW5' : MState := ⟨gW, [(("p(a)", "a"), ⟨[2], [1/2, 1/2]⟩)]⟩

/-- `gW` with one unrelated cache entry pre-seeded. -/
def stW9 : MState := ⟨gW, [(("z", "w"), ⟨[], [7]⟩)]⟩

/-- The `gW` engine with an empty cache. -/
def stW0 : MState := ⟨gW, []⟩

/-- The marginal list belief_propagation reports on `gW`. -/
def msWbp : List (String × Tensor) := [("a", ⟨[2], [1/2, 1/2]⟩)]

/-- The engine state after `belief_propagation` on `gW` with empty cache. -/
def stWbp : MState :=
  ⟨gW, [(("p(a)", "a"), ⟨[2], [1/2, 1/2]⟩), (("a", "p(a)"), ⟨[], [1]⟩)]⟩

/-- The engine state after `forward` on `stW9`. -/
def stW9' : MState :=
  ⟨gW, [(("z", "w"), ⟨[], [7]⟩), (("p(a)", "a"), ⟨[2], [1/2, 1/2]⟩),
        (("a", "p(a)"), ⟨[], [1]⟩)]⟩

/-! Lemmas. -/

/-! Cache lemmas: dict lookup after dict assignment. -/

theorem find?_replace_self (l : List ((String × String) × Tensor)) (k : String × String)
    (m : Tensor) (h : (l.find? (fun e => decide (e.1 = k))).isSome) :
    (l.map (fun e => if e.1 = k then (k, m) else e)).find? (fun e => decide (e.1 = k)) =
      some (k, m) := by
  induction l with
  | nil => simp [List.find?] at h
  | cons e t ih =>
    by_cases he : e.1 = k
    · simp only [List.map_cons, if_pos he, List.find?_cons,
        decide_eq_true (show ((k, m).1 = k) from rfl), decide_True]
    · simp only [List.find?_cons, decide_eq_false he] at h
      simp only [List.map_cons, if_neg he, List.find?_cons, decide_eq_false he]
      exact ih h

theorem find?_replace_ne (l : List ((String × String) × Tensor)) (k k' : String × String)
    (m : Tensor) (hne : k' ≠ k) :
    (l.map (fun e => if e.1 = k then (k, m) else e)).find? (fun e => decide (e.1 = k')) =
      l.find? (fun e => decide (e.1 = k')) := by
  induction l with
  | nil => simp
  | cons e t ih =>
    by_cases he : e.1 = k
    · have h2 : ¬ e.1 = k' := by rw [he]; exact Ne.symm hne
      simp only [List.map_cons, if_pos he, List.find?_cons,
        decide_eq_false (show ¬ ((k, m).1 = k') from Ne.symm hne), decide_eq_false h2]
      exact ih
    · by_cases he' : e.1 = k'
      · simp only [List.map_cons, if_neg he, List.find?_cons, decide_eq_true he']
      · simp only [List.map_cons, if_neg he, List.find?_cons, decide_eq_false he']
        exact ih

theorem lookupMsg_insertMsg_self (st : MState) (k : String × String) (m : Tensor) :
    lookupMsg (insertMsg st k m) k = some m := by
  unfold lookupMsg insertMsg
  by_cases h : (st.messages.find? (fun e => decide (e.1 = k))).isSome
  · simp only [if_pos h]
    rw [find?_replace_self st.messages k m h]
    rfl
  · simp only [if_neg h]
    rw [List.find?_append]
    cases hf : st.messages.find? (fun e => decide (e.1 = k)) with
    | some e => rw [hf] at h; exact absurd rfl h
    | none => simp [List.find?]

theorem lookupMsg_insertMsg_ne (st : MState) (k k' : String × String) (m : Tensor)
    (hne : k' ≠ k) : lookupMsg (insertMsg st k m) k' = lookupMsg st k' := by
  unfold lookupMsg insertMsg
  by_cases h : (st.messages.find? (fun e => decide (e.1 = k))).isSome
  · simp only [if_pos h]
    rw [find?_replace_ne st.messages k k' m hne]
  · simp only [if_neg h]
    rw [List.find?_append]
    cases hf : st.messages.find? (fun e => decide (e.1 = k')) with
    | some e => rfl
    | none => simp [List.find?, decide_eq_false (Ne.symm hne)]

theorem insertMsg_pgm (st : MState) (k : String × String) (m : Tensor) :
    (insertMsg st k m).pgm = st.pgm := rfl

/-- The per-call frame/extension invariant: the graph component is unchanged
and every cache entry present before the call is still present, with the
same value, after it. -/
def Ext (st st' : MState) : Prop :=
  st'.pgm = st.pgm ∧ ∀ k m, lookupMsg st k = some m → lookupMsg st' k = some m

theorem Ext.refl (st : MState) : Ext st st := ⟨Eq.refl st.pgm, fun _ _ h => h⟩

theorem Ext.trans {st₁ st₂ st₃ : MState} (h₁ : Ext st₁ st₂) (h₂ : Ext st₂ st₃) :
    Ext st₁ st₃ :=
  ⟨h₂.1.trans h₁.1, fun k m h => h₂.2 k m (h₁.2 k m h)⟩

/-- Inserting a key that was absent at `st₀` extends any `Ext st₀`-reachable
state: entries of `st₀` have keys different from `k`, so they survive. -/
theorem Ext.insert {st₀ st₁ : MState} (k : String × String) (m : Tensor)
    (hext : Ext st₀ st₁) (habs : lookupMsg st₀ k = none) :
    Ext st₀ (insertMsg st₁ k m) := by
  refine ⟨(insertMsg_pgm st₁ k m).trans hext.1, fun k' m' h => ?_⟩
  have hne : k' ≠ k := by
    intro he; rw [he] at h; rw [habs] at h; exact absurd h (by simp)
  rw [lookupMsg_insertMsg_ne st₁ k k' m hne]
  exact hext.2 k' m' h

/-- Master invariant of the four mutually recursive message computations:
a successful call leaves the graph unchanged, preserves every cache entry
present before the call, and (for the two cached entry points) leaves its
own key in the cache bound to the returned message. -/
theorem core_ext (fuel : Nat) :
    (∀ st vname fname r, Messages.variable_to_factor_messages fuel st vname fname = some r →
      Ext st r.2 ∧ lookupMsg r.2 (vname, fname) = some r.1) ∧
    (∀ st fnames vname r, Messages.collectIncoming fuel st fnames vname = some r →
      Ext st r.2) ∧
    (∀ st fname vname r, Messages.factor_to_variable_message fuel st fname vname = some r →
      Ext st r.2 ∧ lookupMsg r.2 (fname, vname) = some r.1) ∧
    (∀ st unames fname vname acc r,
      Messages.multiplyIncoming fuel st unames fname vname acc = some r → Ext st r.2) := by
  induction fuel with
  | zero =>
    refine ⟨fun st vname fname r h => ?_, fun st fnames vname r h => ?_,
      fun st fname vname r h => ?_, fun st unames fname vname acc r h => ?_⟩
    · simp only [Messages.variable_to_factor_messages] at h
      cases hl : lookupMsg st (vname, fname) with
      | some m => simp only [hl] at h; cases h; exact ⟨Ext.refl st, hl⟩
      | none => simp only [hl] at h; exact Option.noConfusion h
    · cases fnames with
      | nil =>
        simp only [Messages.collectIncoming] at h
        cases h; exact Ext.refl st
      | cons f rest =>
        simp only [Messages.collectIncoming] at h
        exact Option.noConfusion h
    · simp only [Messages.factor_to_variable_message] at h
      cases hl : lookupMsg st (fname, vname) with
      | some m => simp only [hl] at h; cases h; exact ⟨Ext.refl st, hl⟩
      | none => simp only [hl] at h; exact Option.noConfusion h
    · cases unames with
      | nil =>
        simp only [Messages.multiplyIncoming] at h
        cases h; exact Ext.refl st
      | cons u rest =>
        simp only [Messages.multiplyIncoming] at h
        exact Option.noConfusion h
  | succ n ih =>
    refine ⟨fun st vname fname r h => ?_, fun st fnames vname r h => ?_,
      fun st fname vname r h => ?_, fun st unames fname vname acc r h => ?_⟩
    · simp only [Messages.variable_to_factor_messages] at h
      cases hl : lookupMsg st (vname, fname) with
      | some m => simp only [hl] at h; cases h; exact ⟨Ext.refl st, hl⟩
      | none =>
        simp only [hl] at h
        cases hv : st.pgm.variable_from_name vname with
        | none => simp only [hv] at h; exact Option.noConfusion h
        | some v =>
          simp only [hv] at h
          cases hc : Messages.collectIncoming n st
              (v.neighbors.filter (fun x => decide (x ≠ fname))) vname with
          | none => simp only [hc] at h; exact Option.noConfusion h
          | some pr =>
            simp only [hc] at h
            obtain ⟨msgs, st₁⟩ := pr
            cases hp : prodMsgs msgs with
            | none => simp only [hp] at h; exact Option.noConfusion h
            | some m =>
              simp only [hp] at h
              cases h
              have hext₁ := ih.2.1 st _ vname (msgs, st₁) hc
              exact ⟨Ext.insert (vname, fname) m hext₁ hl,
                lookupMsg_insertMsg_self st₁ (vname, fname) m⟩
    · cases fnames with
      | nil =>
        simp only [Messages.collectIncoming] at h
        cases h; exact Ext.refl st
      | cons f rest =>
        simp only [Messages.collectIncoming] at h
        cases hf : Messages.factor_to_variable_message n st f vname with
        | none => simp only [hf] at h; exact Option.noConfusion h
        | some pr₁ =>
          simp only [hf] at h
          obtain ⟨m, st₁⟩ := pr₁
          cases hc : Messages.collectIncoming n st₁ rest vname with
          | none => simp only [hc] at h; exact Option.noConfusion h
          | some pr₂ =>
            simp only [hc] at h
            obtain ⟨ms, st₂⟩ := pr₂
            cases h
            exact ((ih.2.2.1 st f vname (m, st₁) hf).1).trans
              (ih.2.1 st₁ rest vname (ms, st₂) hc)
    · simp only [Messages.factor_to_variable_message] at h
      cases hl : lookupMsg st (fname, vname) with
      | some m => simp only [hl] at h; cases h; exact ⟨Ext.refl st, hl⟩
      | none =>
        simp only [hl] at h
        cases hfa : st.pgm.find_factor fname with
        | none => simp only [hfa] at h; exact Option.noConfusion h
        | some fa =>
          simp only [hfa] at h
          cases hd : fa.data with
          | none => simp only [hd] at h; exact Option.noConfusion h
          | some d =>
            simp only [hd] at h
            cases hm : Messages.multiplyIncoming n st fa.neighbors fname vname
                ⟨d.probs, d.axes_labels⟩ with
            | none => simp only [hm] at h; exact Option.noConfusion h
            | some pr =>
              simp only [hm] at h
              obtain ⟨fd, st₁⟩ := pr
              cases h
              have hext₁ := ih.2.2.2 st fa.neighbors fname vname ⟨d.probs, d.axes_labels⟩
                (fd, st₁) hm
              exact ⟨Ext.insert (fname, vname) _ hext₁ hl,
                lookupMsg_insertMsg_self st₁ (fname, vname) _⟩
    · cases unames with
      | nil =>
        simp only [Messages.multiplyIncoming] at h
        cases h; exact Ext.refl st
      | cons u rest =>
        simp only [Messages.multiplyIncoming] at h
        by_cases hu : u = vname
        · rw [if_pos hu] at h
          exact ih.2.2.2 st rest fname vname acc r h
        · rw [if_neg hu] at h
          cases hv : Messages.variable_to_factor_messages n st u fname with
          | none => simp only [hv] at h; exact Option.noConfusion h
          | some pr₁ =>
            simp only [hv] at h
            obtain ⟨im, st₁⟩ := pr₁
            cases hmul : multiply acc ⟨im, [u]⟩ with
            | none => simp only [hmul] at h; exact Option.noConfusion h
            | some acc₁ =>
              simp only [hmul] at h
              exact ((ih.1 st u fname (im, st₁) hv).1).trans
                (ih.2.2.2 st₁ rest fname vname acc₁ r h)

theorem ext_unnorm_marginal (fuel : Nat) (st : MState) (vname : String) (r : Tensor × MState)
    (h : Messages.unnorm_marginal fuel st vname = some r) : Ext st r.2 := by
  simp only [Messages.unnorm_marginal] at h
  cases hv : st.pgm.variable_from_name vname with
  | none => simp only [hv] at h; exact Option.noConfusion h
  | some v =>
    simp only [hv] at h
    cases hc : Messages.collectIncoming fuel st v.neighbors vname with
    | none => simp only [hc] at h; exact Option.noConfusion h
    | some pr =>
      simp only [hc] at h
      obtain ⟨msgs, st₁⟩ := pr
      cases hp : prodMsgs msgs with
      | none => simp only [hp] at h; exact Option.noConfusion h
      | some u =>
        simp only [hp] at h
        cases h
        exact (core_ext fuel).2.1 st v.neighbors vname (msgs, st₁) hc

theorem ext_marginal (fuel : Nat) (st : MState) (vname : String) (r : Tensor × MState)
    (h : Messages.marginal fuel st vname = some r) : Ext st r.2 := by
  simp only [Messages.marginal] at h
  cases hu : Messages.unnorm_marginal fuel st vname with
  | none => simp only [hu] at h; exact Option.noConfusion h
  | some pr =>
    simp only [hu] at h
    cases h
    exact ext_unnorm_marginal fuel st vname pr hu

theorem ext_processNeighbors (fuel : Nat) (isVar : Bool) (nname : String)
    (nbrs : List String) :
    ∀ st seen r, Messages.processNeighbors fuel isVar nname st nbrs seen = some r →
      Ext st r.1 := by
  induction nbrs with
  | nil =>
    intro st seen r h
    simp only [Messages.processNeighbors] at h
    cases h; exact Ext.refl st
  | cons nb rest ih =>
    intro st seen r h
    simp only [Messages.processNeighbors] at h
    by_cases hs : (nname, nb) ∈ seen
    · rw [if_pos hs] at h
      exact ih st seen r h
    · rw [if_neg hs] at h
      cases isVar with
      | true =>
        simp only [if_pos rfl] at h
        cases hv : Messages.variable_to_factor_messages fuel st nname nb with
        | none => simp only [hv] at h; exact Option.noConfusion h
        | some pr =>
          simp only [hv] at h
          obtain ⟨m, st₁⟩ := pr
          exact (((core_ext fuel).1 st nname nb (m, st₁) hv).1).trans
            (ih st₁ ((nname, nb) :: seen) r h)
      | false =>
        simp only [Bool.false_eq_true, if_neg] at h
        cases hv : Messages.factor_to_variable_message fuel st nname nb with
        | none => simp only [hv] at h; exact Option.noConfusion h
        | some pr =>
          simp only [hv] at h
          obtain ⟨m, st₁⟩ := pr
          exact (((core_ext fuel).2.2.1 st nname nb (m, st₁) hv).1).trans
            (ih st₁ ((nname, nb) :: seen) r h)

theorem ext_processNodes (fuel : Nat) (nodes : List (Bool × String × List String)) :
    ∀ st seen st', Messages.processNodes fuel st nodes seen = some st' → Ext st st' := by
  induction nodes with
  | nil =>
    intro st seen st' h
    simp only [Messages.processNodes] at h
    cases h; exact Ext.refl st
  | cons node rest ih =>
    intro st seen st' h
    obtain ⟨isVar, n, nbrs⟩ := node
    simp only [Messages.processNodes] at h
    cases hp : Messages.processNeighbors fuel isVar n st nbrs seen with
    | none => simp only [hp] at h; exact Option.noConfusion h
    | some pr =>
      simp only [hp] at h
      obtain ⟨st₁, seen₁⟩ := pr
      exact (ext_processNeighbors fuel isVar n nbrs st seen (st₁, seen₁) hp).trans
        (ih st₁ seen₁ st' h)

theorem ext_forward (fuel : Nat) (st st' : MState)
    (h : Messages.forward fuel st = some st') : Ext st st' :=
  ext_processNodes fuel (Messages.nodeList st.pgm) st [] st' h

theorem ext_backward (fuel : Nat) (st st' : MState)
    (h : Messages.backward fuel st = some st') : Ext st st' :=
  ext_processNodes fuel (Messages.nodeList st.pgm).reverse st [] st' h

theorem ext_computeMarginals (fuel : Nat) (vs : List Variable) :
    ∀ st r, Messages.computeMarginals fuel st vs = some r → Ext st r.2 := by
  induction vs with
  | nil =>
    intro st r h
    simp only [Messages.computeMarginals] at h
    cases h; exact Ext.refl st
  | cons v rest ih =>
    intro st r h
    simp only [Messages.computeMarginals] at h
    cases hm : Messages.marginal fuel st v.name with
    | none => simp only [hm] at h; exact Option.noConfusion h
    | some pr₁ =>
      simp only [hm] at h
      obtain ⟨m, st₁⟩ := pr₁
      cases hc : Messages.computeMarginals fuel st₁ rest with
      | none => simp only [hc] at h; exact Option.noConfusion h
      | some pr₂ =>
        simp only [hc] at h
        obtain ⟨ms, st₂⟩ := pr₂
        cases h
        exact (ext_marginal fuel st v.name (m, st₁) hm).trans (ih st₁ (ms, st₂) hc)

theorem ext_belief_propagation (fuel : Nat) (st : MState) (r : List (String × Tensor) × MState)
    (h : Messages.belief_propagation fuel st = some r) : Ext st r.2 := by
  simp only [Messages.belief_propagation] at h
  cases hf : Messages.forward fuel st with
  | none => simp only [hf] at h; exact Option.noConfusion h
  | some st₁ =>
    simp only [hf] at h
    cases hb : Messages.backward fuel st₁ with
    | none => simp only [hb] at h; exact Option.noConfusion h
    | some st₂ =>
      simp only [hb] at h
      exact ((ext_forward fuel st st₁ hf).trans (ext_backward fuel st₁ st₂ hb)).trans
        (ext_computeMarginals fuel st₂.pgm._variables st₂ r h)

/-- A factor→variable request whose key is already cached returns the cached
value and leaves the state untouched (the `if message_name not in
self.messages` guard). -/
theorem factor_to_variable_message_cached (fuel : Nat) (st : MState) (fname vname : String)
    (m : Tensor) (h : lookupMsg st (fname, vname) = some m) :
    Messages.factor_to_variable_message fuel st fname vname = some (m, st) := by
  cases fuel with
  | zero => simp only [Messages.factor_to_variable_message, h]
  | succ n => simp only [Messages.factor_to_variable_message, h]

/-- Re-running a successful message collection from its own final state hits
the cache everywhere: same messages, same state. -/
theorem collectIncoming_idem (l : List String) :
    ∀ fuel st vname ms st₁, Messages.collectIncoming fuel st l vname = some (ms, st₁) →
      Messages.collectIncoming fuel st₁ l vname = some (ms, st₁) := by
  induction l with
  | nil =>
    intro fuel st vname ms st₁ h
    simp only [Messages.collectIncoming] at h ⊢
    cases h; rfl
  | cons f rest ih =>
    intro fuel st vname ms st₁ h
    cases fuel with
    | zero => simp only [Messages.collectIncoming] at h; exact Option.noConfusion h
    | succ n =>
      simp only [Messages.collectIncoming] at h ⊢
      cases hf : Messages.factor_to_variable_message n st f vname with
      | none => simp only [hf] at h; exact Option.noConfusion h
      | some pr₁ =>
        simp only [hf] at h
        obtain ⟨m, st₂⟩ := pr₁
        cases hc : Messages.collectIncoming n st₂ rest vname with
        | none => simp only [hc] at h; exact Option.noConfusion h
        | some pr₂ =>
          simp only [hc] at h
          obtain ⟨ms₂, st₃⟩ := pr₂
          cases h
          have hk₂ : lookupMsg st₂ (f, vname) = some m :=
            ((core_ext n).2.2.1 st f vname (m, st₂) hf).2
          have hk₃ : lookupMsg st₃ (f, vname) = some m :=
            ((core_ext n).2.1 st₂ rest vname (ms₂, st₃) hc).2 (f, vname) m hk₂
          simp only [factor_to_variable_message_cached n st₃ f vname m hk₃,
            ih n st₂ vname ms₂ st₃ hc]

/-- Re-running a successful unnormalized-marginal computation from its own
final state returns the same value and does not change the state. -/
theorem unnorm_marginal_idem (fuel : Nat) (st : MState) (vname : String) (u : Tensor)
    (st₁ : MState) (h : Messages.unnorm_marginal fuel st vname = some (u, st₁)) :
    Messages.unnorm_marginal fuel st₁ vname = some (u, st₁) := by
  simp only [Messages.unnorm_marginal] at h ⊢
  cases hv : st.pgm.variable_from_name vname with
  | none => simp only [hv] at h; exact Option.noConfusion h
  | some v =>
    simp only [hv] at h
    cases hc : Messages.collectIncoming fuel st v.neighbors vname with
    | none => simp only [hc] at h; exact Option.noConfusion h
    | some pr =>
      simp only [hc] at h
      obtain ⟨msgs, st₂⟩ := pr
      cases hp : prodMsgs msgs with
      | none => simp only [hp] at h; exact Option.noConfusion h
      | some u' =>
        simp only [hp] at h
        cases h
        have hext : Ext st st₁ := (core_ext fuel).2.1 st v.neighbors vname (msgs, st₁) hc
        simp only [hext.1, hv]
        simp only [collectIncoming_idem v.neighbors fuel st vname msgs st₁ hc, hp]

/-! Claim theorems and their witnesses.  Batteries marks the rational
operations `@[irreducible]`, which blocks `decide`'s elaboration-time
evaluation (the kernel ignores reducibility); they are made semireducible
locally so concrete engine runs evaluate. -/

section ConcreteEvaluation

attribute [local semireducible] Rat.mul Rat.inv Rat.add Rat.sub

/-- Claim C5: on one Messages instance over a fixed graph, calling
marginal(v) a second time returns a result identical to the first call's
result and leaves the cache exactly as the first call left it (nothing
added, removed or changed). -/
theorem marginal_idempotent (fuel : Nat) (st : MState) (vname : String) (m : Tensor)
    (st₁ : MState) (h : Messages.marginal fuel st vname = some (m, st₁)) :
    Messages.marginal fuel st₁ vname = some (m, st₁) := by
  simp only [Messages.marginal] at h ⊢
  cases hu : Messages.unnorm_marginal fuel st vname with
  | none => simp only [hu] at h; exact Option.noConfusion h
  | some pr =>
    obtain ⟨u, st₂⟩ := pr
    simp only [hu, Option.map_some', Option.some.injEq, Prod.mk.injEq] at h
    rw [← h.1, ← h.2]
    simp only [unnorm_marginal_idem fuel st vname u st₂ hu, Option.map_some']

/-- Claim C5 witness: the idempotence theorem applied to the concrete
one-factor graph `gW`. -/
theorem marginal_idempotent_witness :
    Messages.marginal 5 stW5' ("a") = some (⟨[2], [1/2, 1/2]⟩, stW5') :=
  marginal_idempotent 5 ⟨gW, []⟩ ("a") ⟨[2], [1/2, 1/2]⟩ stW5' (by decide)

/-- Claim C9: a message-cache entry present before a call to any engine
operation still maps to the same value after the call succeeds: once
written, an entry is never replaced or changed by a later call. -/
theorem cache_entries_never_change (fuel : Nat) (st : MState) (k : String × String)
    (m₀ : Tensor) (hk : lookupMsg st k = some m₀) :
    (∀ vname fname r, Messages.variable_to_factor_messages fuel st vname fname = some r →
      lookupMsg r.2 k = some m₀) ∧
    (∀ fname vname r, Messages.factor_to_variable_message fuel st fname vname = some r →
      lookupMsg r.2 k = some m₀) ∧
    (∀ vname r, Messages.marginal fuel st vname = some r → lookupMsg r.2 k = some m₀) ∧
    (∀ st', Messages.forward fuel st = some st' → lookupMsg st' k = some m₀) ∧
    (∀ st', Messages.backward fuel st = some st' → lookupMsg st' k = some m₀) ∧
    (∀ r, Messages.belief_propagation fuel st = some r → lookupMsg r.2 k = some m₀) :=
  ⟨fun vname fname r h => (((core_ext fuel).1 st vname fname r h).1).2 k m₀ hk,
   fun fname vname r h => (((core_ext fuel).2.2.1 st fname vname r h).1).2 k m₀ hk,
   fun vname r h => (ext_marginal fuel st vname r h).2 k m₀ hk,
   fun st' h => (ext_forward fuel st st' h).2 k m₀ hk,
   fun st' h => (ext_backward fuel st st' h).2 k m₀ hk,
   fun r h => (ext_belief_propagation fuel st r h).2 k m₀ hk⟩

/-- Claim C9 witness: a pre-seeded entry survives a full forward sweep over
the concrete graph `gW`, with the same value. -/
theorem cache_entries_never_change_witness :
    lookupMsg stW9' (("z", "w")) = some ⟨[], [7]⟩ :=
  (cache_entries_never_change 5 stW9 (("z", "w")) ⟨[], [7]⟩ (by decide)).2.2.2.1 stW9'
    (by decide)

/-- Claim C10: no message-passing operation mutates the graph: after any
successful call, the PGM component — every factor (name, neighbor list and
bound tensor with its probs and axes_labels) and every variable (name and
neighbor list) — is exactly the one the call started from. -/
theorem graph_never_mutated (fuel : Nat) (st : MState) :
    (∀ vname fname r, Messages.variable_to_factor_messages fuel st vname fname = some r →
      r.2.pgm = st.pgm) ∧
    (∀ fname vname r, Messages.factor_to_variable_message fuel st fname vname = some r →
      r.2.pgm = st.pgm) ∧
    (∀ vname r, Messages.marginal fuel st vname = some r → r.2.pgm = st.pgm) ∧
    (∀ st', Messages.forward fuel st = some st' → st'.pgm = st.pgm) ∧
    (∀ st', Messages.backward fuel st = some st' → st'.pgm = st.pgm) ∧
    (∀ r, Messages.belief_propagation fuel st = some r → r.2.pgm = st.pgm) :=
  ⟨fun vname fname r h => (((core_ext fuel).1 st vname fname r h).1).1,
   fun fname vname r h => (((core_ext fuel).2.2.1 st fname vname r h).1).1,
   fun vname r h => (ext_marginal fuel st vname r h).1,
   fun st' h => (ext_forward fuel st st' h).1,
   fun st' h => (ext_backward fuel st st' h).1,
   fun r h => (ext_belief_propagation fuel st r h).1⟩

/-- Claim C10 witness: the frame theorem applied to a concrete marginal
computation on `gW`. -/
theorem graph_never_mutated_witness : stW5'.pgm = (MState.mk gW []).pgm :=
  (graph_never_mutated 5 ⟨gW, []⟩).2.2.1 ("a") (⟨[2], [1/2, 1/2]⟩, stW5') (by decide)

/-- get_axis finds only genuine labels, at in-range positions. -/
theorem get_axis_mem (d : Distribution) (n : String) (i : Nat)
    (h : d.get_axis n = some i) : n ∈ d.axes_labels ∧ i < d.axes_labels.length := by
  unfold Distribution.get_axis at h
  cases hg : (d.axes_labels.enum.filter (fun p => decide (p.2 = n))).getLast? with
  | none => rw [hg] at h; exact Option.noConfusion h
  | some p =>
    rw [hg] at h
    simp only [Option.map_some', Option.some.injEq] at h
    have hp := List.mem_filter.mp (List.mem_of_mem_getLast? hg)
    have h2 : p.2 = n := of_decide_eq_true hp.2
    subst h
    exact ⟨h2 ▸ List.snd_mem_of_mem_enum hp.1, List.fst_lt_of_mem_enum hp.1⟩

/-- A name among the labels has an axis position (the dict lookup hits). -/
theorem get_axis_isSome_of_mem (d : Distribution) (n : String) (h : n ∈ d.axes_labels) :
    ∃ i, d.get_axis n = some i := by
  obtain ⟨j, hj, rfl⟩ := List.mem_iff_getElem.mp h
  have hmem : (j, d.axes_labels[j]) ∈ d.axes_labels.enum := by
    rw [List.mem_enum_iff_getElem?]; exact List.getElem?_eq_getElem hj
  have hmemf : (j, d.axes_labels[j]) ∈
      d.axes_labels.enum.filter (fun p => decide (p.2 = d.axes_labels[j])) :=
    List.mem_filter.mpr ⟨hmem, by simp⟩
  unfold Distribution.get_axis
  cases hg : (d.axes_labels.enum.filter
      (fun p => decide (p.2 = d.axes_labels[j]))).getLast? with
  | none =>
    rw [List.getLast?_eq_none_iff] at hg
    rw [hg] at hmemf
    exact absurd hmemf (List.not_mem_nil _)
  | some p => exact ⟨p.1, rfl⟩

/-- Claim C6: multiply(a, b), with b carrying exactly one named axis, fails
with the AxisMismatch error whenever b's axis name is not found among a's
axis names (the KeyError), or whenever b's non-degenerate (1-D) dimension
size disagrees with the size of a's axis of the same name (the reshape
ValueError).  `a` is a well-formed labeled tensor: one label per axis. -/
theorem multiply_axis_mismatch_fails (a b : Distribution) (h : String) (L : Nat)
    (hwf : a.axes_labels.length = a.probs.shape.length)
    (hb : b.axes_labels = [h])
    (hfail : h ∉ a.axes_labels ∨
      (b.probs.shape = [L] ∧ ∀ i, a.get_axis h = some i → a.probs.shape.getD i 0 ≠ L)) :
    multiply a b = none := by
  unfold multiply
  rw [hb]
  simp only [List.head?_cons]
  cases hax : a.get_axis h with
  | none => simp only [hax]
  | some axis =>
    simp only [hax]
    rcases hfail with hnm | ⟨hshape, hsize⟩
    · exact absurd (get_axis_mem a h axis hax).1 hnm
    · have hlt : axis < a.probs.shape.length := hwf ▸ (get_axis_mem a h axis hax).2
      rw [dif_pos hlt, hshape]
      rw [if_neg (by simp)]
      rw [if_neg ?hcond]
      case hcond =>
        have hgd : a.probs.shape.getD axis 0 = a.probs.shape.get ⟨axis, hlt⟩ := by
          rw [List.getD_eq_getElem?_getD, List.getElem?_eq_getElem hlt]
          rfl
        intro hc
        simp only [List.prod_cons, List.prod_nil, mul_one] at hc
        exact hsize axis hax (by rw [hgd, ← hc])

/-- Claim C7: multiply(a, b) with a compatible single-axis b — b's one axis
name occurs among a's axes and b is rank-0 or 1-D of the matched axis size —
returns a tensor whose ordered axis-label sequence and array shape equal
a's.  `a` is a well-formed labeled tensor: one label per axis. -/
theorem multiply_keeps_labels_and_shape (a b : Distribution) (h : String) (i : Nat)
    (hwf : a.axes_labels.length = a.probs.shape.length)
    (hb : b.axes_labels = [h])
    (hax : a.get_axis h = some i)
    (hcompat : b.probs.shape = [] ∨ b.probs.shape = [a.probs.shape.getD i 0]) :
    (multiply a b).map (fun r => (r.axes_labels, r.probs.shape)) =
      some (a.axes_labels, a.probs.shape) := by
  unfold multiply
  rw [hb]
  simp only [List.head?_cons, hax]
  have hlt : i < a.probs.shape.length := hwf ▸ (get_axis_mem a h i hax).2
  have hgd : a.probs.shape.getD i 0 = a.probs.shape.get ⟨i, hlt⟩ := by
    rw [List.getD_eq_getElem?_getD, List.getElem?_eq_getElem hlt]
    rfl
  rw [dif_pos hlt]
  rcases hcompat with hsc | hsv
  · rw [if_pos hsc]; rfl
  · rw [hsv]
    rw [if_neg (by simp)]
    rw [if_pos (by simp only [List.prod_cons, List.prod_nil, mul_one]; rw [hgd])]
    rfl

/-- Claim C6 witness: a 1-D axis named y is not among a's axes. -/
theorem multiply_axis_mismatch_fails_witness :
    multiply ⟨⟨[2], [1, 1]⟩, ["x"]⟩ ⟨⟨[3], [1, 1, 1]⟩, ["y"]⟩ = none :=
  multiply_axis_mismatch_fails ⟨⟨[2], [1, 1]⟩, ["x"]⟩ ⟨⟨[3], [1, 1, 1]⟩, ["y"]⟩ ("y") 3
    (by decide) (by decide) (Or.inl (by decide))

/-- Claim C7 witness: a compatible 1-D axis named x of size 2. -/
theorem multiply_keeps_labels_and_shape_witness :
    (multiply ⟨⟨[2], [1, 1]⟩, ["x"]⟩ ⟨⟨[2], [2, 3]⟩, ["x"]⟩).map
      (fun r => (r.axes_labels, r.probs.shape)) = some (["x"], [2]) :=
  multiply_keeps_labels_and_shape ⟨⟨[2], [1, 1]⟩, ["x"]⟩ ⟨⟨[2], [2, 3]⟩, ["x"]⟩ ("x") 0
    (by decide) (by decide) (by decide) (Or.inr (by decide))

/-! Non-negativity is preserved by every tensor operation and by the whole
message recursion. -/

theorem nonneg_getD (l : List ℚ) (hl : ∀ q ∈ l, 0 ≤ q) (i : Nat) : 0 ≤ l.getD i 0 := by
  rw [List.getD_eq_getElem?_getD]
  cases hx : l[i]? with
  | none => simp
  | some x => simpa using hl x (List.getElem?_mem hx)

theorem nonnegT_val (t : Tensor) (h : NonnegT t) (idx : List Nat) : 0 ≤ t.val idx :=
  nonneg_getD t.data h (flatIdx t.shape idx)

theorem nonnegT_entries (t : Tensor) (h : NonnegT t) : ∀ q ∈ t.entries, 0 ≤ q := by
  intro q hq
  obtain ⟨idx, _, rfl⟩ := List.mem_map.mp hq
  exact nonnegT_val t h idx

theorem nonnegT_sumAxes (t : Tensor) (axes : List Nat) (h : NonnegT t) :
    NonnegT (t.sumAxes axes) := by
  intro q hq
  simp only [Tensor.sumAxes] at hq
  obtain ⟨j, _, rfl⟩ := List.mem_map.mp hq
  refine List.sum_nonneg ?_
  intro x hx
  obtain ⟨idx, _, rfl⟩ := List.mem_map.mp hx
  exact nonnegT_val t h idx

theorem nonnegT_prodMsgs (ms : List Tensor) (h : ∀ m ∈ ms, NonnegT m) (t : Tensor)
    (hp : prodMsgs ms = some t) : NonnegT t := by
  cases ms with
  | nil =>
    simp only [prodMsgs] at hp
    cases hp
    intro q hq
    simp only [List.mem_singleton] at hq
    subst hq
    norm_num
  | cons m rest =>
    simp only [prodMsgs] at hp
    by_cases hall : rest.all (fun x => decide (x.shape = m.shape)) = true
    · rw [if_pos hall] at hp
      cases hp
      intro q hq
      obtain ⟨idx, _, rfl⟩ := List.mem_map.mp hq
      refine List.prod_nonneg ?_
      intro x hx
      obtain ⟨mm, hmm, rfl⟩ := List.mem_map.mp hx
      exact nonnegT_val mm (h mm hmm) idx
    · rw [if_neg hall] at hp
      exact Option.noConfusion hp

theorem nonnegT_multiply (a b : Distribution) (ha : NonnegT a.probs) (hb : NonnegT b.probs)
    (r : Distribution) (h : multiply a b = some r) : NonnegT r.probs := by
  unfold multiply at h
  cases hh : b.axes_labels.head? with
  | none => simp only [hh] at h; exact Option.noConfusion h
  | some bname =>
    simp only [hh] at h
    cases hax : a.get_axis bname with
    | none => simp only [hax] at h; exact Option.noConfusion h
    | some axis =>
      simp only [hax] at h
      by_cases hlt : axis < a.probs.shape.length
      · rw [dif_pos hlt] at h
        by_cases hsc : b.probs.shape = ([] : List Nat)
        · rw [if_pos hsc] at h
          cases h
          intro q hq
          obtain ⟨idx, _, rfl⟩ := List.mem_map.mp hq
          exact mul_nonneg (nonnegT_val a.probs ha idx) (nonneg_getD b.probs.data hb 0)
        · rw [if_neg hsc] at h
          by_cases hpp : b.probs.shape.prod = a.probs.shape.get ⟨axis, hlt⟩
          · rw [if_pos hpp] at h
            cases h
            intro q hq
            obtain ⟨idx, _, rfl⟩ := List.mem_map.mp hq
            exact mul_nonneg (nonnegT_val a.probs ha idx)
              (nonneg_getD b.probs.data hb (idx.getD axis 0))
          · rw [if_neg hpp] at h
            exact Option.noConfusion h
      · rw [dif_neg hlt] at h
        exact Option.noConfusion h

theorem nonnegCache_lookup (st : MState) (hc : NonnegCache st.messages) (k : String × String)
    (m : Tensor) (h : lookupMsg st k = some m) : NonnegT m := by
  unfold lookupMsg at h
  cases hf : st.messages.find? (fun e => decide (e.1 = k)) with
  | none => rw [hf] at h; exact Option.noConfusion h
  | some e =>
    rw [hf] at h
    simp only [Option.map_some', Option.some.injEq] at h
    subst h
    exact hc e (List.mem_of_find?_eq_some hf)

theorem nonnegS_insert (st : MState) (hs : NonnegS st) (k : String × String) (m : Tensor)
    (hm : NonnegT m) : NonnegS (insertMsg st k m) := by
  refine ⟨hs.1, ?_⟩
  intro e he
  simp only [insertMsg] at he
  by_cases hf : (st.messages.find? (fun e => decide (e.1 = k))).isSome
  · rw [if_pos hf] at he
    obtain ⟨e₀, he₀, hee⟩ := List.mem_map.mp he
    by_cases hk : e₀.1 = k
    · rw [if_pos hk] at hee; subst hee; exact hm
    · rw [if_neg hk] at hee; subst hee; exact hs.2 e₀ he₀
  · rw [if_neg hf] at he
    rcases List.mem_append.mp he with h1 | h2
    · exact hs.2 e h1
    · simp only [List.mem_singleton] at h2; subst h2; exact hm

/-- The NumPy factor lookup returns a bound tensor of the graph, so its
entries are non-negative whenever the graph's are. -/
theorem nonnegPGM_find_factor (g : PGM) (hg : NonnegPGM g) (n : String) (fa : Factor)
    (h : g.find_factor n = some fa) : ∀ d ∈ fa.data.toList, NonnegT d.probs :=
  hg fa (List.mem_of_find?_eq_some h)

/-- Non-negativity invariant of the message recursion: when every bound
tensor of the graph and every cached message is entrywise non-negative, so
is every computed message and every state the computation leaves behind. -/
theorem core_nonneg (fuel : Nat) :
    (∀ st vname fname r, NonnegS st →
      Messages.variable_to_factor_messages fuel st vname fname = some r →
      NonnegT r.1 ∧ NonnegS r.2) ∧
    (∀ st fnames vname r, NonnegS st →
      Messages.collectIncoming fuel st fnames vname = some r →
      (∀ m ∈ r.1, NonnegT m) ∧ NonnegS r.2) ∧
    (∀ st fname vname r, NonnegS st →
      Messages.factor_to_variable_message fuel st fname vname = some r →
      NonnegT r.1 ∧ NonnegS r.2) ∧
    (∀ st unames fname vname acc r, NonnegS st → NonnegT acc.probs →
      Messages.multiplyIncoming fuel st unames fname vname acc = some r →
      NonnegT r.1.probs ∧ NonnegS r.2) := by
  induction fuel with
  | zero =>
    refine ⟨fun st vname fname r hs h => ?_, fun st fnames vname r hs h => ?_,
      fun st fname vname r hs h => ?_, fun st unames fname vname acc r hs hacc h => ?_⟩
    · simp only [Messages.variable_to_factor_messages] at h
      cases hl : lookupMsg st (vname, fname) with
      | some m =>
        simp only [hl] at h; cases h
        exact ⟨nonnegCache_lookup st hs.2 (vname, fname) m hl, hs⟩
      | none => simp only [hl] at h; exact Option.noConfusion h
    · cases fnames with
      | nil =>
        simp only [Messages.collectIncoming] at h
        cases h
        exact ⟨fun m hm => absurd hm (List.not_mem_nil m), hs⟩
      | cons f rest =>
        simp only [Messages.collectIncoming] at h
        exact Option.noConfusion h
    · simp only [Messages.factor_to_variable_message] at h
      cases hl : lookupMsg st (fname, vname) with
      | some m =>
        simp only [hl] at h; cases h
        exact ⟨nonnegCache_lookup st hs.2 (fname, vname) m hl, hs⟩
      | none => simp only [hl] at h; exact Option.noConfusion h
    · cases unames with
      | nil =>
        simp only [Messages.multiplyIncoming] at h
        cases h
        exact ⟨hacc, hs⟩
      | cons u rest =>
        simp only [Messages.multiplyIncoming] at h
        exact Option.noConfusion h
  | succ n ih =>
    refine ⟨fun st vname fname r hs h => ?_, fun st fnames vname r hs h => ?_,
      fun st fname vname r hs h => ?_, fun st unames fname vname acc r hs hacc h => ?_⟩
    · simp only [Messages.variable_to_factor_messages] at h
      cases hl : lookupMsg st (vname, fname) with
      | some m =>
        simp only [hl] at h; cases h
        exact ⟨nonnegCache_lookup st hs.2 (vname, fname) m hl, hs⟩
      | none =>
        simp only [hl] at h
        cases hv : st.pgm.variable_from_name vname with
        | none => simp only [hv] at h; exact Option.noConfusion h
        | some v =>
          simp only [hv] at h
          cases hc : Messages.collectIncoming n st
              (v.neighbors.filter (fun x => decide (x ≠ fname))) vname with
          | none => simp only [hc] at h; exact Option.noConfusion h
          | some pr =>
            simp only [hc] at h
            obtain ⟨msgs, st₁⟩ := pr
            cases hp : prodMsgs msgs with
            | none => simp only [hp] at h; exact Option.noConfusion h
            | some m =>
              simp only [hp] at h
              cases h
              obtain ⟨hmsgs, hs₁⟩ := ih.2.1 st _ vname (msgs, st₁) hs hc
              have hm : NonnegT m := nonnegT_prodMsgs msgs hmsgs m hp
              exact ⟨hm, nonnegS_insert st₁ hs₁ (vname, fname) m hm⟩
    · cases fnames with
      | nil =>
        simp only [Messages.collectIncoming] at h
        cases h
        exact ⟨fun m hm => absurd hm (List.not_mem_nil m), hs⟩
      | cons f rest =>
        simp only [Messages.collectIncoming] at h
        cases hf : Messages.factor_to_variable_message n st f vname with
        | none => simp only [hf] at h; exact Option.noConfusion h
        | some pr₁ =>
          simp only [hf] at h
          obtain ⟨m, st₁⟩ := pr₁
          cases hc : Messages.collectIncoming n st₁ rest vname with
          | none => simp only [hc] at h; exact Option.noConfusion h
          | some pr₂ =>
            simp only [hc] at h
            obtain ⟨ms, st₂⟩ := pr₂
            cases h
            obtain ⟨hm, hs₁⟩ := ih.2.2.1 st f vname (m, st₁) hs hf
            obtain ⟨hms, hs₂⟩ := ih.2.1 st₁ rest vname (ms, st₂) hs₁ hc
            refine ⟨fun x hx => ?_, hs₂⟩
            rcases List.mem_cons.mp hx with hx1 | hx2
            · exact hx1 ▸ hm
            · exact hms x hx2
    · simp only [Messages.factor_to_variable_message] at h
      cases hl : lookupMsg st (fname, vname) with
      | some m =>
        simp only [hl] at h; cases h
        exact ⟨nonnegCache_lookup st hs.2 (fname, vname) m hl, hs⟩
      | none =>
        simp only [hl] at h
        cases hfa : st.pgm.find_factor fname with
        | none => simp only [hfa] at h; exact Option.noConfusion h
        | some fa =>
          simp only [hfa] at h
          cases hd : fa.data with
          | none => simp only [hd] at h; exact Option.noConfusion h
          | some d =>
            simp only [hd] at h
            cases hm : Messages.multiplyIncoming n st fa.neighbors fname vname
                ⟨d.probs, d.axes_labels⟩ with
            | none => simp only [hm] at h; exact Option.noConfusion h
            | some pr =>
              simp only [hm] at h
              obtain ⟨fd, st₁⟩ := pr
              cases h
              have hdn : NonnegT d.probs := by
                refine nonnegPGM_find_factor st.pgm hs.1 fname fa hfa d ?_
                rw [hd]
                exact List.mem_singleton.mpr rfl
              obtain ⟨hfd, hs₁⟩ := ih.2.2.2 st fa.neighbors fname vname
                ⟨d.probs, d.axes_labels⟩ (fd, st₁) hs hdn hm
              have hmsg : NonnegT ((fd.probs.sumAxes (d.get_other_axes_from vname)).squeeze) :=
                nonnegT_sumAxes fd.probs (d.get_other_axes_from vname) hfd
              exact ⟨hmsg, nonnegS_insert st₁ hs₁ (fname, vname) _ hmsg⟩
    · cases unames with
      | nil =>
        simp only [Messages.multiplyIncoming] at h
        cases h
        exact ⟨hacc, hs⟩
      | cons u rest =>
        simp only [Messages.multiplyIncoming] at h
        by_cases hu : u = vname
        · rw [if_pos hu] at h
          exact ih.2.2.2 st rest fname vname acc r hs hacc h
        · rw [if_neg hu] at h
          cases hv : Messages.variable_to_factor_messages n st u fname with
          | none => simp only [hv] at h; exact Option.noConfusion h
          | some pr₁ =>
            simp only [hv] at h
            obtain ⟨im, st₁⟩ := pr₁
            cases hmul : multiply acc ⟨im, [u]⟩ with
            | none => simp only [hmul] at h; exact Option.noConfusion h
            | some acc₁ =>
              simp only [hmul] at h
              obtain ⟨him, hs₁⟩ := ih.1 st u fname (im, st₁) hs hv
              have hacc₁ : NonnegT acc₁.probs :=
                nonnegT_multiply acc ⟨im, [u]⟩ hacc him acc₁ hmul
              exact ih.2.2.2 st₁ rest fname vname acc₁ r hs₁ hacc₁ h

theorem list_sum_map_div (l : List ℚ) (c : ℚ) : (l.map (fun q => q / c)).sum = l.sum / c := by
  induction l with
  | nil => simp
  | cons a t ih => simp [ih, add_div]

/-- A successful unnormalized marginal over a non-negative state is
entrywise non-negative. -/
theorem unnorm_marginal_nonneg (fuel : Nat) (st : MState) (vname : String) (u : Tensor)
    (st₁ : MState) (hs : NonnegS st)
    (hu : Messages.unnorm_marginal fuel st vname = some (u, st₁)) : NonnegT u := by
  simp only [Messages.unnorm_marginal] at hu
  cases hv : st.pgm.variable_from_name vname with
  | none => simp only [hv] at hu; exact Option.noConfusion hu
  | some v =>
    simp only [hv] at hu
    cases hcol : Messages.collectIncoming fuel st v.neighbors vname with
    | none => simp only [hcol] at hu; exact Option.noConfusion hu
    | some pr =>
      simp only [hcol] at hu
      obtain ⟨msgs, st₂⟩ := pr
      cases hp : prodMsgs msgs with
      | none => simp only [hp] at hu; exact Option.noConfusion hu
      | some u' =>
        simp only [hp] at hu
        cases hu
        exact nonnegT_prodMsgs msgs
          ((core_nonneg fuel).2.1 st v.neighbors vname (msgs, st₁) hs hcol).1 u hp

/-- Claim C1 (amended): for every factor graph whose bound tensors have
non-negative entries and every variable v for which the engine's
unnormalized marginal is defined and has nonzero sum, marginal(v) returns
its normalization: all entries non-negative, entries summing to 1.  The
nonzero-sum proviso is forced by the recorded counterexample: with an
all-zero (still
non-negative) bound tensor the unnormalized marginal sums to zero and the
division yields NumPy's nan vector, not a distribution. -/
theorem marginal_nonneg_sums_to_one (fuel : Nat) (st : MState) (vname : String)
    (u : Tensor) (st₁ : MState) (hg : NonnegPGM st.pgm) (hc : NonnegCache st.messages)
    (hu : Messages.unnorm_marginal fuel st vname = some (u, st₁))
    (hsum : u.entries.sum ≠ 0) :
    Messages.marginal fuel st vname = some (u.normalize, st₁) ∧
    (∀ q ∈ u.normalize.data, 0 ≤ q) ∧ u.normalize.data.sum = 1 := by
  have hnn : NonnegT u := unnorm_marginal_nonneg fuel st vname u st₁ ⟨hg, hc⟩ hu
  have hent : ∀ q ∈ u.entries, 0 ≤ q := nonnegT_entries u hnn
  have hpos : 0 < u.entries.sum :=
    lt_of_le_of_ne (List.sum_nonneg hent) (Ne.symm hsum)
  refine ⟨?_, ?_, ?_⟩
  · simp only [Messages.marginal, hu, Option.map_some']
  · intro q hq
    simp only [Tensor.normalize] at hq
    obtain ⟨x, hx, rfl⟩ := List.mem_map.mp hq
    exact div_nonneg (hent x hx) (le_of_lt hpos)
  · simp only [Tensor.normalize]
    rw [list_sum_map_div]
    exact div_self hsum

/-- Claim C1 witness: the amended theorem applied to the concrete graph
`gW` (all tensors non-negative, unnormalized marginal summing to 1). -/
theorem marginal_nonneg_sums_to_one_witness :
    (Messages.marginal 5 ⟨gW, []⟩ ("a") =
      some ((⟨[2], [1/2, 1/2]⟩ : Tensor).normalize, stW5')) ∧
    (∀ q ∈ (⟨[2], [1/2, 1/2]⟩ : Tensor).normalize.data, 0 ≤ q) ∧
    (⟨[2], [1/2, 1/2]⟩ : Tensor).normalize.data.sum = 1 :=
  marginal_nonneg_sums_to_one 5 ⟨gW, []⟩ ("a") ⟨[2], [1/2, 1/2]⟩ stW5'
    (by decide) (by decide) (by decide) (by decide)

/-- Claim C1 counterexample: the tree-shaped graph `gZ` has bound tensors
with only non-negative entries, yet the vector marginal(x1) returns sums
to 0, not 1 (NumPy returns the nan vector there: 0/0). -/
theorem marginal_zero_tensor_not_normalized :
    ((Messages.marginal 5 ⟨gZ, []⟩ ("x1")).map (fun p => p.1.data.sum) = some 0) ∧
    some (0 : ℚ) ≠ some (1 : ℚ) :=
  ⟨by decide, by decide⟩

/-- Claim C2: at hard contradictory evidence (`gDeg`) the unnormalized
marginal of v sums to exactly zero, and marginal(v) nevertheless returns a
value: the code surfaces no DegenerateEvidence error at all — NumPy
silently emits the nan vector (in this rational model the zero vector),
contradicting the spec's requirement that this condition must be reported. -/
theorem marginal_degenerate_no_error :
    ((Messages.unnorm_marginal 20 ⟨gDeg, []⟩ ("v")).map (fun p => p.1.entries.sum) =
      some 0) ∧
    (Messages.marginal 20 ⟨gDeg, []⟩ ("v")).isSome = true :=
  ⟨by decide, by decide⟩

/-- Claim C8: the notebook's three-factor chain, built from its
factorization string with the three tensors bound, yields the engine
marginal [25/66, 41/66] for x1, each component within 1e-4 of the quoted
[0.3788, 0.6212]. -/
theorem scenarioA_marginal_x1 :
    ((stA.bind (fun st => Messages.marginal 20 st ("x1"))).map (fun p => p.1) =
      some ⟨[2], [25/66, 41/66]⟩) ∧
    |(25 : ℚ)/66 - 3788/10000| ≤ 1/10000 ∧ |(41 : ℚ)/66 - 6212/10000| ≤ 1/10000 :=
  ⟨by decide, by decide, by decide⟩

/-! Cache coverage after the forward/backward sweeps, and agreement of the
reported marginals with hand-rederivation from the cache (claim C4). -/

theorem Ext.lookup_isSome {st st' : MState} (h : Ext st st') (p : String × String)
    (hp : (lookupMsg st p).isSome) : (lookupMsg st' p).isSome := by
  obtain ⟨m, hm⟩ := Option.isSome_iff_exists.mp hp
  exact Option.isSome_iff_exists.mpr ⟨m, h.2 p m hm⟩

theorem processNeighbors_covers (fuel : Nat) (isVar : Bool) (nname : String)
    (nbrs : List String) :
    ∀ st seen st' seen',
      Messages.processNeighbors fuel isVar nname st nbrs seen = some (st', seen') →
      (∀ p ∈ seen, (lookupMsg st p).isSome) →
      (∀ p ∈ seen', (lookupMsg st' p).isSome) ∧
      (∀ nb ∈ nbrs, (nname, nb) ∈ seen') ∧ (∀ p ∈ seen, p ∈ seen') := by
  induction nbrs with
  | nil =>
    intro st seen st' seen' h hinv
    simp only [Messages.processNeighbors] at h
    cases h
    exact ⟨hinv, fun nb hnb => absurd hnb (List.not_mem_nil nb), fun p hp => hp⟩
  | cons nb rest ih =>
    intro st seen st' seen' h hinv
    simp only [Messages.processNeighbors] at h
    by_cases hs : (nname, nb) ∈ seen
    · rw [if_pos hs] at h
      obtain ⟨hinv', hrest, hsub⟩ := ih st seen st' seen' h hinv
      refine ⟨hinv', fun x hx => ?_, hsub⟩
      rcases List.mem_cons.mp hx with hx1 | hx2
      · exact hx1 ▸ hsub (nname, nb) hs
      · exact hrest x hx2
    · rw [if_neg hs] at h
      have hop : ∀ m st₁,
          (if isVar then Messages.variable_to_factor_messages fuel st nname nb
           else Messages.factor_to_variable_message fuel st nname nb) = some (m, st₁) →
          Ext st st₁ ∧ lookupMsg st₁ (nname, nb) = some m := by
        intro m st₁ hcall
        cases isVar with
        | true =>
          rw [if_pos rfl] at hcall
          exact (core_ext fuel).1 st nname nb (m, st₁) hcall
        | false =>
          rw [if_neg (by simp)] at hcall
          exact (core_ext fuel).2.2.1 st nname nb (m, st₁) hcall
      cases hcall : (if isVar then Messages.variable_to_factor_messages fuel st nname nb
          else Messages.factor_to_variable_message fuel st nname nb) with
      | none => simp only [hcall] at h; exact Option.noConfusion h
      | some pr =>
        simp only [hcall] at h
        obtain ⟨m, st₁⟩ := pr
        obtain ⟨hext, hkey⟩ := hop m st₁ hcall
        have hinv₁ : ∀ p ∈ (nname, nb) :: seen, (lookupMsg st₁ p).isSome := by
          intro p hp
          rcases List.mem_cons.mp hp with hp1 | hp2
          · rw [hp1, hkey]; rfl
          · exact hext.lookup_isSome p (hinv p hp2)
        obtain ⟨hinv', hrest, hsub⟩ := ih st₁ ((nname, nb) :: seen) st' seen' h hinv₁
        refine ⟨hinv', fun x hx => ?_, fun p hp => hsub p (List.mem_cons_of_mem _ hp)⟩
        rcases List.mem_cons.mp hx with hx1 | hx2
        · exact hx1 ▸ hsub (nname, nb) (List.mem_cons_self _ _)
        · exact hrest x hx2

theorem processNodes_covers (fuel : Nat) (nodes : List (Bool × String × List String)) :
    ∀ st seen st', Messages.processNodes fuel st nodes seen = some st' →
      (∀ p ∈ seen, (lookupMsg st p).isSome) →
      ∀ node ∈ nodes, ∀ nb ∈ node.2.2, (lookupMsg st' (node.2.1, nb)).isSome := by
  induction nodes with
  | nil =>
    intro st seen st' h hinv node hnode
    exact absurd hnode (List.not_mem_nil node)
  | cons node₀ rest ih =>
    intro st seen st' h hinv node hnode
    obtain ⟨isVar, n, nbrs⟩ := node₀
    simp only [Messages.processNodes] at h
    cases hp : Messages.processNeighbors fuel isVar n st nbrs seen with
    | none => simp only [hp] at h; exact Option.noConfusion h
    | some pr =>
      simp only [hp] at h
      obtain ⟨st₁, seen₁⟩ := pr
      obtain ⟨hinv₁, hnbrs, _⟩ := processNeighbors_covers fuel isVar n nbrs st seen st₁ seen₁
        hp hinv
      rcases List.mem_cons.mp hnode with hn1 | hn2
      · subst hn1
        intro nb hnb
        have hsome₁ : (lookupMsg st₁ (n, nb)).isSome := hinv₁ (n, nb) (hnbrs nb hnb)
        exact (ext_processNodes fuel rest st₁ seen₁ st' h).lookup_isSome (n, nb) hsome₁
      · exact ih st₁ seen₁ st' h hinv₁ node hn2

theorem forward_covers (fuel : Nat) (st st' : MState)
    (h : Messages.forward fuel st = some st') :
    (∀ f ∈ st.pgm._factors, ∀ vn ∈ f.neighbors, (lookupMsg st' (f.name, vn)).isSome) ∧
    (∀ v ∈ st.pgm._variables, ∀ fn ∈ v.neighbors, (lookupMsg st' (v.name, fn)).isSome) := by
  have hcov := processNodes_covers fuel (Messages.nodeList st.pgm) st [] st' h
    (fun p hp => absurd hp (List.not_mem_nil p))
  constructor
  · intro f hf vn hvn
    exact hcov (false, f.name, f.neighbors)
      (List.mem_append_left _ (List.mem_map.mpr ⟨f, hf, rfl⟩)) vn hvn
  · intro v hv fn hfn
    exact hcov (true, v.name, v.neighbors)
      (List.mem_append_right _ (List.mem_map.mpr ⟨v, hv, rfl⟩)) fn hfn

theorem collectIncoming_mapM (l : List String) :
    ∀ fuel st vname ms st₁, Messages.collectIncoming fuel st l vname = some (ms, st₁) →
      l.mapM (fun f => lookupMsg st₁ (f, vname)) = some ms := by
  induction l with
  | nil =>
    intro fuel st vname ms st₁ h
    simp only [Messages.collectIncoming] at h
    cases h
    rfl
  | cons f rest ih =>
    intro fuel st vname ms st₁ h
    cases fuel with
    | zero => simp only [Messages.collectIncoming] at h; exact Option.noConfusion h
    | succ n =>
      simp only [Messages.collectIncoming] at h
      cases hf : Messages.factor_to_variable_message n st f vname with
      | none => simp only [hf] at h; exact Option.noConfusion h
      | some pr₁ =>
        simp only [hf] at h
        obtain ⟨m, st₂⟩ := pr₁
        cases hc : Messages.collectIncoming n st₂ rest vname with
        | none => simp only [hc] at h; exact Option.noConfusion h
        | some pr₂ =>
          simp only [hc] at h
          obtain ⟨ms₂, st₃⟩ := pr₂
          cases h
          have hk : lookupMsg st₃ (f, vname) = some m :=
            ((core_ext n).2.1 st₂ rest vname (ms₂, st₃) hc).2 (f, vname) m
              ((core_ext n).2.2.1 st f vname (m, st₂) hf).2
          simp only [List.mapM_cons, hk, ih n st₂ vname ms₂ st₃ hc, Option.pure_def,
            Option.bind_eq_bind, Option.some_bind]

theorem mapM_lookup_ext (l : List String) (vname : String) {st st' : MState}
    (hext : Ext st st') :
    ∀ ms, l.mapM (fun f => lookupMsg st (f, vname)) = some ms →
      l.mapM (fun f => lookupMsg st' (f, vname)) = some ms := by
  induction l with
  | nil => intro ms h; exact h
  | cons f rest ih =>
    intro ms h
    simp only [List.mapM_cons, Option.pure_def, Option.bind_eq_bind] at h ⊢
    cases hf : lookupMsg st (f, vname) with
    | none => rw [hf] at h; exact Option.noConfusion h
    | some m =>
      rw [hf] at h
      simp only [Option.some_bind] at h
      cases hr : rest.mapM (fun f => lookupMsg st (f, vname)) with
      | none => rw [hr] at h; exact Option.noConfusion h
      | some ms₂ =>
        rw [hr] at h
        rw [hext.2 (f, vname) m hf, ih ms₂ hr]
        simpa using h

theorem find?_name_self : ∀ (l : List Variable), (l.map Variable.name).Nodup →
    ∀ v ∈ l, l.find? (fun x => decide (x.name = v.name)) = some v := by
  intro l
  induction l with
  | nil => intro _ v hv; exact absurd hv (List.not_mem_nil v)
  | cons v₀ rest ih =>
    intro hnd v hv
    simp only [List.map_cons, List.nodup_cons] at hnd
    rcases List.mem_cons.mp hv with hv1 | hv2
    · subst hv1
      simp [List.find?_cons]
    · have hne : ¬ v₀.name = v.name := fun he =>
        hnd.1 (he ▸ List.mem_map.mpr ⟨v, hv2, rfl⟩)
      rw [List.find?_cons_of_neg _ (by simpa using hne)]
      exact ih hnd.2 v hv2

/-- With distinct variable names (a dict invariant), looking a variable's
own name up in the graph returns that variable. -/
theorem variable_from_name_self (g : PGM)
    (hnd : (g._variables.map Variable.name).Nodup) (v : Variable)
    (hv : v ∈ g._variables) : g.variable_from_name v.name = some v :=
  find?_name_self g._variables hnd v hv

/-- A successful marginal call agrees with the by-hand rederivation from
any cache extending the call's final one. -/
theorem marginal_rederived (fuel : Nat) (st : MState) (v : Variable) (m : Tensor)
    (st₁ : MState) (hv : st.pgm.variable_from_name v.name = some v)
    (h : Messages.marginal fuel st v.name = some (m, st₁)) :
    ∀ st', Ext st₁ st' → rederivedMarginal st' v = some m := by
  intro st' hext
  simp only [Messages.marginal] at h
  cases hu : Messages.unnorm_marginal fuel st v.name with
  | none => simp only [hu] at h; exact Option.noConfusion h
  | some pr =>
    obtain ⟨u, st₂⟩ := pr
    simp only [hu, Option.map_some', Option.some.injEq, Prod.mk.injEq] at h
    simp only [Messages.unnorm_marginal, hv] at hu
    cases hcol : Messages.collectIncoming fuel st v.neighbors v.name with
    | none => simp only [hcol] at hu; exact Option.noConfusion hu
    | some pr₂ =>
      obtain ⟨msgs, st₃⟩ := pr₂
      simp only [hcol, Option.some.injEq, Prod.mk.injEq] at hu
      cases hp : prodMsgs msgs with
      | none => simp only [hp] at hu; exact Option.noConfusion hu
      | some u' =>
        simp only [hp, Option.some.injEq, Prod.mk.injEq] at hu
        obtain ⟨hu1, hu2⟩ := hu
        obtain ⟨h1, h2⟩ := h
        subst hu1
        subst hu2
        subst h1
        subst h2
        have hmap := mapM_lookup_ext v.neighbors v.name hext msgs
          (collectIncoming_mapM v.neighbors fuel st v.name msgs _ hcol)
        unfold rederivedMarginal
        simp only [hmap, hp, Option.map_some']

theorem computeMarginals_spec (fuel : Nat) (vs : List Variable) :
    ∀ st ms st', Messages.computeMarginals fuel st vs = some (ms, st') →
      (∀ v ∈ vs, st.pgm.variable_from_name v.name = some v) →
      ms.length = vs.length ∧
      ∀ j (hj1 : j < vs.length) (hj2 : j < ms.length),
        (ms.get ⟨j, hj2⟩).1 = (vs.get ⟨j, hj1⟩).name ∧
        rederivedMarginal st' (vs.get ⟨j, hj1⟩) = some (ms.get ⟨j, hj2⟩).2 := by
  induction vs with
  | nil =>
    intro st ms st' h hres
    simp only [Messages.computeMarginals] at h
    cases h
    exact ⟨rfl, fun j hj1 hj2 => absurd hj1 (Nat.not_lt_zero j)⟩
  | cons v rest ih =>
    intro st ms st' h hres
    simp only [Messages.computeMarginals] at h
    cases hm : Messages.marginal fuel st v.name with
    | none => simp only [hm] at h; exact Option.noConfusion h
    | some pr₁ =>
      simp only [hm] at h
      obtain ⟨m, st₁⟩ := pr₁
      cases hc : Messages.computeMarginals fuel st₁ rest with
      | none => simp only [hc] at h; exact Option.noConfusion h
      | some pr₂ =>
        simp only [hc] at h
        obtain ⟨ms₂, st₂⟩ := pr₂
        cases h
        have hext₁ : Ext st st₁ := ext_marginal fuel st v.name (m, st₁) hm
        have hres' : ∀ w ∈ rest, st₁.pgm.variable_from_name w.name = some w := by
          intro w hw
          rw [hext₁.1]
          exact hres w (List.mem_cons_of_mem v hw)
        obtain ⟨hlen, hpt⟩ := ih st₁ ms₂ st₂ hc hres'
        have hext₂ : Ext st₁ st₂ := ext_computeMarginals fuel rest st₁ (ms₂, st₂) hc
        refine ⟨by simp [hlen], ?_⟩
        intro j hj1 hj2
        cases j with
        | zero =>
          exact ⟨rfl, marginal_rederived fuel st v m st₁
            (hres v (List.mem_cons_self v rest)) hm st₂ hext₂⟩
        | succ i =>
          have hj1' : i < rest.length := by simpa using hj1
          have hj2' : i < ms₂.length := by simpa using hj2
          exact hpt i hj1' hj2'

/-- Claim C4: after Messages.belief_propagation on a graph whose variable
names are distinct (the dict invariant of PGM._variables), the message
cache holds an entry for every factor→variable direction listed by the
factors and every variable→factor direction listed by the variables, and
the marginal the engine reports for each variable is exactly the
normalized elementwise product of the cached factor→variable messages of
that variable's neighbors (`rederivedMarginal`, stated from the spec's
words). -/
theorem belief_propagation_cache (fuel : Nat) (st : MState)
    (ms : List (String × Tensor)) (st' : MState)
    (hnd : (st.pgm._variables.map Variable.name).Nodup)
    (h : Messages.belief_propagation fuel st = some (ms, st')) :
    (∀ f ∈ st.pgm._factors, ∀ vn ∈ f.neighbors, (lookupMsg st' (f.name, vn)).isSome) ∧
    (∀ v ∈ st.pgm._variables, ∀ fn ∈ v.neighbors, (lookupMsg st' (v.name, fn)).isSome) ∧
    ms.length = st.pgm._variables.length ∧
    (∀ j (hj1 : j < st.pgm._variables.length) (hj2 : j < ms.length),
      (ms.get ⟨j, hj2⟩).1 = (st.pgm._variables.get ⟨j, hj1⟩).name ∧
      rederivedMarginal st' (st.pgm._variables.get ⟨j, hj1⟩) = some (ms.get ⟨j, hj2⟩).2) := by
  simp only [Messages.belief_propagation] at h
  cases hf : Messages.forward fuel st with
  | none => simp only [hf] at h; exact Option.noConfusion h
  | some st₁ =>
    simp only [hf] at h
    cases hb : Messages.backward fuel st₁ with
    | none => simp only [hb] at h; exact Option.noConfusion h
    | some st₂ =>
      simp only [hb] at h
      have hpg₁ : st₁.pgm = st.pgm := (ext_forward fuel st st₁ hf).1
      have hpg₂ : st₂.pgm = st.pgm := (ext_backward fuel st₁ st₂ hb).1.trans hpg₁
      have hcm : Messages.computeMarginals fuel st₂ st.pgm._variables = some (ms, st') := by
        rw [← hpg₂]; exact h
      have hres : ∀ v ∈ st.pgm._variables, st₂.pgm.variable_from_name v.name = some v := by
        intro v hv
        rw [hpg₂]
        exact variable_from_name_self st.pgm hnd v hv
      obtain ⟨hlen, hpt⟩ := computeMarginals_spec fuel st.pgm._variables st₂ ms st' hcm hres
      obtain ⟨hcov1, hcov2⟩ := forward_covers fuel st st₁ hf
      have hext : Ext st₁ st' := (ext_backward fuel st₁ st₂ hb).trans
        (ext_computeMarginals fuel st.pgm._variables st₂ (ms, st') hcm)
      refine ⟨?_, ?_, hlen, hpt⟩
      · intro f hff vn hvn
        exact hext.lookup_isSome (f.name, vn) (hcov1 f hff vn hvn)
      · intro v hv fn hfn
        exact hext.lookup_isSome (v.name, fn) (hcov2 v hv fn hfn)

/-- Claim C4 witness: belief propagation over the concrete graph `gW`. -/
theorem belief_propagation_cache_witness :
    (∀ f ∈ stW0.pgm._factors, ∀ vn ∈ f.neighbors, (lookupMsg stWbp (f.name, vn)).isSome) ∧
    (∀ v ∈ stW0.pgm._variables, ∀ fn ∈ v.neighbors, (lookupMsg stWbp (v.name, fn)).isSome) ∧
    msWbp.length = stW0.pgm._variables.length ∧
    (∀ j (hj1 : j < stW0.pgm._variables.length) (hj2 : j < msWbp.length),
      (msWbp.get ⟨j, hj2⟩).1 = (stW0.pgm._variables.get ⟨j, hj1⟩).name ∧
      rederivedMarginal stWbp (stW0.pgm._variables.get ⟨j, hj1⟩) =
        some (msWbp.get ⟨j, hj2⟩).2) :=
  belief_propagation_cache 5 stW0 msWbp stWbp (by decide) (by decide)

/-! Parser lemmas (claim C3): what parse_model_into_variables_and_factors
builds, characterized in terms of the parsed terms. -/

theorem any_name_iff (vars : List Variable) (n : String) :
    vars.any (fun v => decide (v.name = n)) = true ↔ n ∈ vars.map Variable.name := by
  rw [List.any_eq_true]
  constructor
  · rintro ⟨v, hv, hd⟩
    exact List.mem_map.mpr ⟨v, hv, of_decide_eq_true hd⟩
  · rintro hm
    obtain ⟨v, hv, he⟩ := List.mem_map.mp hm
    exact ⟨v, hv, decide_eq_true he⟩

theorem addNames_spec : ∀ (ns : List String) (vars : List Variable),
    ((vars.map Variable.name).Nodup → ((addNames vars ns).map Variable.name).Nodup) ∧
    (∀ x, x ∈ (addNames vars ns).map Variable.name ↔
      x ∈ vars.map Variable.name ∨ x ∈ ns) ∧
    (∀ v ∈ addNames vars ns, v ∈ vars ∨ v.neighbors = []) := by
  intro ns
  induction ns with
  | nil =>
    intro vars
    exact ⟨fun h => h, fun x => by simp [addNames], fun v hv => Or.inl hv⟩
  | cons n rest ih =>
    intro vars
    by_cases hany : vars.any (fun v => decide (v.name = n)) = true
    · have hstep : addNames vars (n :: rest) = addNames vars rest := by
        simp only [addNames, if_pos hany]
      rw [hstep]
      obtain ⟨ihn, ihm, ihv⟩ := ih vars
      refine ⟨ihn, fun x => ?_, ihv⟩
      rw [ihm x]
      constructor
      · rintro (hx | hx)
        · exact Or.inl hx
        · exact Or.inr (List.mem_cons_of_mem n hx)
      · rintro (hx | hx)
        · exact Or.inl hx
        · rcases List.mem_cons.mp hx with hx1 | hx2
          · exact Or.inl (hx1 ▸ (any_name_iff vars n).mp hany)
          · exact Or.inr hx2
    · have hstep : addNames vars (n :: rest) = addNames (vars ++ [⟨n, []⟩]) rest := by
        simp only [addNames, if_neg hany]
      rw [hstep]
      obtain ⟨ihn, ihm, ihv⟩ := ih (vars ++ [⟨n, []⟩])
      have hnames : (vars ++ [(⟨n, []⟩ : Variable)]).map Variable.name =
          vars.map Variable.name ++ [n] := by simp
      refine ⟨fun hnd => ?_, fun x => ?_, fun v hv => ?_⟩
      · refine ihn ?_
        rw [hnames, List.nodup_append]
        refine ⟨hnd, List.nodup_singleton n, ?_⟩
        intro x hx he
        simp only [List.mem_singleton] at he
        subst he
        exact hany ((any_name_iff vars x).mpr hx)
      · rw [ihm x, hnames]
        constructor
        · rintro (hx | hx)
          · rcases List.mem_append.mp hx with hx1 | hx2
            · exact Or.inl hx1
            · simp only [List.mem_singleton] at hx2
              exact Or.inr (hx2 ▸ List.mem_cons_self n rest)
          · exact Or.inr (List.mem_cons_of_mem n hx)
        · rintro (hx | hx)
          · exact Or.inl (List.mem_append_left _ hx)
          · rcases List.mem_cons.mp hx with hx1 | hx2
            · exact Or.inl (List.mem_append_right _ (by simp [hx1]))
            · exact Or.inr hx2
      · rcases ihv v hv with hv1 | hv2
        · rcases List.mem_append.mp hv1 with hv3 | hv4
          · exact Or.inl hv3
          · simp only [List.mem_singleton] at hv4
            exact Or.inr (by rw [hv4])
        · exact Or.inr hv2

theorem collectVariables_spec : ∀ (ts : List ParsedTerm) (vars : List Variable),
    ((vars.map Variable.name).Nodup →
      ((collectVariables vars ts).map Variable.name).Nodup) ∧
    (∀ x, x ∈ (collectVariables vars ts).map Variable.name ↔
      x ∈ vars.map Variable.name ∨ ∃ t ∈ ts, x ∈ t.var_name) ∧
    (∀ v ∈ collectVariables vars ts, v ∈ vars ∨ v.neighbors = []) := by
  intro ts
  induction ts with
  | nil =>
    intro vars
    exact ⟨fun h => h, fun x => by simp [collectVariables], fun v hv => Or.inl hv⟩
  | cons t rest ih =>
    intro vars
    have hstep : collectVariables vars (t :: rest) =
        collectVariables (addNames vars t.var_name) rest := by
      simp only [collectVariables]
    rw [hstep]
    obtain ⟨ihn, ihm, ihv⟩ := ih (addNames vars t.var_name)
    obtain ⟨an, am, av⟩ := addNames_spec t.var_name vars
    refine ⟨fun hnd => ihn (an hnd), fun x => ?_, fun v hv => ?_⟩
    · rw [ihm x]
      constructor
      · rintro (hx | ⟨t', ht', hxt⟩)
        · rcases (am x).mp hx with hx1 | hx2
          · exact Or.inl hx1
          · exact Or.inr ⟨t, List.mem_cons_self t rest, hx2⟩
        · exact Or.inr ⟨t', List.mem_cons_of_mem t ht', hxt⟩
      · rintro (hx | ⟨t', ht', hxt⟩)
        · exact Or.inl ((am x).mpr (Or.inl hx))
        · rcases List.mem_cons.mp ht' with ht1 | ht2
          · exact Or.inl ((am x).mpr (Or.inr (ht1 ▸ hxt)))
          · exact Or.inr ⟨t', ht2, hxt⟩
    · rcases ihv v hv with hv1 | hv2
      · exact av v hv1
      · exact Or.inr hv2

/-- linkTerm's exact effect: the factor gets all the term's identifiers
appended (in order, with multiplicity), and each variable gets one copy of
the factor's name appended per occurrence of its own name. -/
theorem linkTerm_spec : ∀ (names : List String) (vars : List Variable) (acc : Factor)
    (vars' : List Variable) (f' : Factor),
    linkTerm vars acc names = some (vars', f') →
    f' = ⟨acc.name, acc.neighbors ++ names, acc.data⟩ ∧
    vars' = vars.map (fun v =>
      ⟨v.name, v.neighbors ++
        (names.filter (fun x => decide (x = v.name))).map (fun _ => acc.name)⟩) := by
  intro names
  induction names with
  | nil =>
    intro vars acc vars' f' h
    simp only [linkTerm] at h
    cases h
    constructor
    · cases acc
      simp
    · symm
      rw [show vars.map (fun v => (⟨v.name, v.neighbors ++
            (List.filter (fun x => decide (x = v.name)) []).map
              (fun _ => acc.name)⟩ : Variable)) = vars.map id from
          List.map_congr_left (fun v _ => by cases v; simp), List.map_id]
  | cons n rest ih =>
    intro vars acc vars' f' h
    simp only [linkTerm] at h
    by_cases hany : vars.any (fun v => decide (v.name = n)) = true
    · rw [if_pos hany] at h
      obtain ⟨hf, hv⟩ := ih _ _ vars' f' h
      constructor
      · rw [hf]
        simp
      · rw [hv, List.map_map]
        refine List.map_congr_left ?_
        intro v _
        by_cases hvn : v.name = n
        · simp [hvn, List.filter_cons]
        · simp [hvn, Ne.symm hvn, List.filter_cons]
    · rw [if_neg hany] at h
      exact Option.noConfusion h

/-- buildFactors' effect: one factor per term in order, and per-variable
neighbor membership grows by exactly the terms containing that variable. -/
theorem buildFactors_spec : ∀ (ts : List ParsedTerm) (vars : List Variable)
    (facs : List Factor) (vars' : List Variable) (fs' : List Factor),
    buildFactors vars facs ts = some (vars', fs') →
    fs' = facs ++ ts.map (fun t => ⟨t.term, t.var_name ++ t.given, none⟩) ∧
    vars'.map Variable.name = vars.map Variable.name ∧
    (∀ v' ∈ vars', ∃ v ∈ vars, v'.name = v.name ∧
      (∀ fn, fn ∈ v'.neighbors ↔ fn ∈ v.neighbors ∨
        ∃ t ∈ ts, t.term = fn ∧ v.name ∈ t.var_name ++ t.given)) := by
  intro ts
  induction ts with
  | nil =>
    intro vars facs vars' fs' h
    simp only [buildFactors] at h
    cases h
    exact ⟨by simp, rfl, fun v' hv' => ⟨v', hv', rfl, fun fn => by simp⟩⟩
  | cons t rest ih =>
    intro vars facs vars' fs' h
    simp only [buildFactors] at h
    cases hl : linkTerm vars ⟨t.term, [], none⟩ (t.var_name ++ t.given) with
    | none => simp only [hl] at h; exact Option.noConfusion h
    | some pr =>
      simp only [hl] at h
      obtain ⟨vars₁, f⟩ := pr
      obtain ⟨hf, hv₁⟩ := linkTerm_spec (t.var_name ++ t.given) vars ⟨t.term, [], none⟩
        vars₁ f hl
      obtain ⟨ihf, ihn, ihv⟩ := ih vars₁ (facs ++ [f]) vars' fs' h
      refine ⟨?_, ?_, ?_⟩
      · rw [ihf, hf]
        simp
      · rw [ihn, hv₁, List.map_map]
        rfl
      · intro v' hv'
        obtain ⟨v₁, hv₁m, hname, hiff⟩ := ihv v' hv'
        rw [hv₁] at hv₁m
        obtain ⟨v, hvm, hveq⟩ := List.mem_map.mp hv₁m
        have hv₁name : v₁.name = v.name := by rw [← hveq]
        have hmem : ∀ fn, fn ∈ v₁.neighbors ↔ fn ∈ v.neighbors ∨
            (t.term = fn ∧ v.name ∈ t.var_name ++ t.given) := by
          intro fn
          rw [← hveq]
          simp only [List.mem_append, List.mem_map, List.mem_filter]
          constructor
          · rintro (ha | ⟨x, ⟨hx1, hx2⟩, hx3⟩)
            · exact Or.inl ha
            · exact Or.inr ⟨hx3, (of_decide_eq_true hx2) ▸ hx1⟩
          · rintro (ha | ⟨hb1, hb2⟩)
            · exact Or.inl ha
            · exact Or.inr ⟨v.name, ⟨hb2, decide_eq_true rfl⟩, hb1⟩
        refine ⟨v, hvm, hname.trans hv₁name, ?_⟩
        intro fn
        rw [hiff fn, hmem fn, hv₁name]
        constructor
        · rintro ((ha | hb) | ⟨t', ht', h1, h2⟩)
          · exact Or.inl ha
          · exact Or.inr ⟨t, List.mem_cons_self t rest, hb⟩
          · exact Or.inr ⟨t', List.mem_cons_of_mem t ht', h1, h2⟩
        · rintro (ha | ⟨t', ht', h1, h2⟩)
          · exact Or.inl (Or.inl ha)
          · rcases List.mem_cons.mp ht' with ht1 | ht2
            · exact Or.inl (Or.inr (ht1 ▸ ⟨h1, h2⟩))
            · exact Or.inr ⟨t', ht2, h1, h2⟩

/-- Claim C3 (amended): for every factorization string whose terms parse
and on which the graph builder completes, one Variable node is created per
distinct identifier appearing to the LEFT of the bar in some term — an
identifier appearing only right of a bar never gets a Variable (the builder
raises KeyError instead, see the counterexample) — and each Factor is
linked bidirectionally to the Variable of every identifier appearing in
that factor's term (both sides of the bar). -/
theorem parse_model_links (s : String) (ts : List ParsedTerm) (fs : List Factor)
    (vs : List Variable)
    (hts : parse_model_string_into_terms s = some ts)
    (hp : parse_model_into_variables_and_factors s = some (fs, vs)) :
    (vs.map Variable.name).Nodup ∧
    (∀ n, n ∈ vs.map Variable.name ↔ ∃ t ∈ ts, n ∈ t.var_name) ∧
    fs = ts.map (fun t => ⟨t.term, t.var_name ++ t.given, none⟩) ∧
    (∀ v ∈ vs, ∀ fn, fn ∈ v.neighbors ↔
      ∃ t ∈ ts, t.term = fn ∧ v.name ∈ t.var_name ++ t.given) := by
  unfold parse_model_into_variables_and_factors at hp
  simp only [hts] at hp
  cases hb : buildFactors (collectVariables [] ts) [] ts with
  | none => simp only [hb] at hp; exact Option.noConfusion hp
  | some pr =>
    simp only [hb] at hp
    obtain ⟨vs₁, fs₁⟩ := pr
    cases hp
    obtain ⟨cn, cm, cv⟩ := collectVariables_spec ts []
    obtain ⟨bf, bn, bv⟩ := buildFactors_spec ts (collectVariables [] ts) [] vs₁ fs₁ hb
    refine ⟨?_, ?_, by simpa using bf, ?_⟩
    · rw [bn]
      exact cn (by simp)
    · intro n
      rw [show vs₁.map Variable.name = _ from bn, cm n]
      simp
    · intro v hv fn
      obtain ⟨v₀, hv₀, hname, hiff⟩ := bv v hv
      rw [hiff fn]
      have hnb : v₀.neighbors = [] := by
        rcases cv v₀ hv₀ with h1 | h2
        · exact absurd h1 (List.not_mem_nil v₀)
        · exact h2
      rw [hnb, hname]
      simp

/-- Claim C3 counterexample: the well-formed string p(a|b) parses into one
term with left identifier a and right identifier b, yet
parse_model_into_variables_and_factors fails (the variables[var_name]
KeyError): no Variable node is ever created for b, which appears only to
the right of the bar. -/
theorem parse_model_right_only_identifier_fails :
    parse_model_string_into_terms ("p(a|b)") = some [⟨"p(a|b)", ["a"], ["b"]⟩] ∧
    parse_model_into_variables_and_factors ("p(a|b)") = none :=
  ⟨by decide, by decide⟩

/-- Claim C3 witness: the amended theorem applied to p(h1)p(h2|h1). -/
theorem parse_model_links_witness :
    (vsW.map Variable.name).Nodup ∧
    (∀ n, n ∈ vsW.map Variable.name ↔ ∃ t ∈ tsW, n ∈ t.var_name) ∧
    fsW = tsW.map (fun t => ⟨t.term, t.var_name ++ t.given, none⟩) ∧
    (∀ v ∈ vsW, ∀ fn, fn ∈ v.neighbors ↔
      ∃ t ∈ tsW, t.term = fn ∧ v.name ∈ t.var_name ++ t.given) :=
  parse_model_links ("p(h1)p(h2|h1)") tsW fsW vsW (by decide) (by decide)

end ConcreteEvaluation

end PML
